import Mathlib

/-!
# pre-k: cloud-provider detection

A verification development for the `cloud-provider` command of pre-k
(`cmds/whoami.go`) and for the detector it prints the answer of.

The command itself is embedded from the source.  The detector package
(`pharmer.dev/pre-k/lib`, function `DetectCloudProvider`) is not among the
source files; the definitions that stand for it are marked
`Modelled from the spec:` and follow sections 3 and 4 of the specification.
-/

namespace PreK

/-! ## Data model -/

/-- Modelled from the spec: the closed enumeration `ProviderID` of section 3
(the detector package that declares it is not among the source files). -/
inductive ProviderID where
  | aws
  | azure
  | digitalocean
  | gce
  | linode
  | scaleway
  | softlayer
  | vultr
  | unknown
  deriving DecidableEq, Repr

/-- Modelled from the spec: the canonical string of a `ProviderID`, as the
library call `DetectCloudProvider() -> string` of section 6 returns it. -/
def ProviderID.toString : ProviderID → String
  | .aws => "aws"
  | .azure => "azure"
  | .digitalocean => "digitalocean"
  | .gce => "gce"
  | .linode => "linode"
  | .scaleway => "scaleway"
  | .softlayer => "softlayer"
  | .vultr => "vultr"
  | .unknown => "unknown"

/-- Modelled from the spec: `ProbeResult` of section 3,
`{ provider, matched, evidence, elapsed, err }`; `elapsed` is a duration in
nanoseconds and `err` the optional error text. -/
structure ProbeResult where
  provider : ProviderID
  matched : Bool
  evidence : String
  elapsed : Nat
  err : Option String
  deriving DecidableEq, Repr

/-! ## Detector: the precedence rule (section 4.2, steps 3 to 6) -/

/-- Modelled from the spec: the fixed priority order of section 4.2 step 6,
"the order in which providers are documented", which is the order of the rows
of the help table in `cmds/whoami.go`. -/
def priorityOrder : List ProviderID :=
  [.aws, .azure, .digitalocean, .gce, .linode, .scaleway, .softlayer, .vultr]

/-- Position of a provider in the priority order; a smaller number is a higher
priority.  `unknown` is not in the order and gets the length of the list. -/
def priority (p : ProviderID) : Nat :=
  priorityOrder.indexOf p

/-- Modelled from the spec: section 4.2 step 6, "apply a fixed priority order
and return the highest-priority match": the first provider of the priority
order that some match carries, `unknown` when no match carries one. -/
def highestPriority (matches_ : List ProbeResult) : ProviderID :=
  (priorityOrder.find? (fun p => matches_.any (fun r => r.provider == p))).getD .unknown

/-- Modelled from the spec: section 4.2 step 3, "Filter to `matched=true`
results". -/
def matchedResults (results : List ProbeResult) : List ProbeResult :=
  results.filter (fun r => r.matched)

/-- Modelled from the spec: steps 3 to 6 of the algorithm of `Detect`
(section 4.2), applied to the collected probe results.  Zero matches give
`unknown`, exactly one match gives its provider, more than one match is
resolved by the priority order. -/
def Detect (results : List ProbeResult) : ProviderID :=
  match matchedResults results with
  | [] => .unknown
  | [r] => r.provider
  | r :: s :: rest => highestPriority (r :: s :: rest)

/-! ## The command (`cmds/whoami.go`) -/

/-- The part of the process state the command touches: what has been written
to standard output, and how many calls of `lib.DetectCloudProvider` have been
made. -/
structure World where
  stdout : String
  detectCalls : Nat
  deriving DecidableEq, Repr

/-- An operand of `fmt.Print`, formatted with its default format; `isString`
says whether the operand's kind is string. -/
structure Operand where
  isString : Bool
  text : String
  deriving DecidableEq, Repr

/-- The loop of `fmt.Print` over its operands: a space is added between two
operands when neither is a string, and no newline is added.  `first` is true
at operand number 0. -/
def doPrint (first prevString : Bool) : List Operand → String
  | [] => ""
  | a :: rest =>
    (if !first && !a.isString && !prevString then " " else "")
      ++ a.text ++ doPrint false a.isString rest

/-- Model of `fmt.Print`: append the formatted operands to standard output. -/
def fmtPrint (w : World) (operands : List Operand) : World :=
  { w with stdout := w.stdout ++ doPrint true false operands }

/-- Model of a `cobra.Command` literal with the fields that
`NewCmdCloudProvider` sets.  `Run` takes the argument list and the process
state. -/
structure Command where
  Use : String
  Short : String
  Long : String
  DisableAutoGenTag : Bool
  Run : List String → World → World

/-- The `Long` help text of the cloud-provider command, verbatim. -/
def cloudProviderLong : String := "
Kubernetes has the concept of a [Cloud Provider](https://kubernetes.io/docs/getting-started-guides/scratch/#cloud-provider),
which is a module which provides an interface for managing TCP Load Balancers, Nodes (Instances) and Networking Routes.
This library can be used to identify cloud provider based on various instance metadata without requiring user input.

**Supported Cloud Providers**

| Id          | Name                  | Technique                                                                                                          |
|-------------|-----------------------|--------------------------------------------------------------------------------------------------------------------|
|aws          | Amazon Web Services   | [Instance Identity Documents](http://docs.aws.amazon.com/AWSEC2/latest/UserGuide/instance-identity-documents.html) |
|azure        | Microsoft Azure       | [Instance info](https://azure.microsoft.com/en-us/blog/what-just-happened-to-my-vm-in-vm-metadata-service/) |
|digitalocean | DigitalOcan           | [Droplet metadata](https://developers.digitalocean.com/documentation/metadata/#metadata-in-json) |
|gce          | Google Cloud Platform | [GCE Instance metadata](https://cloud.google.com/compute/docs/storing-retrieving-metadata#endpoints) |
|linode       | Linode                | Reverse domain name(PTR record) |
|scaleway     | Scaleway              | [Instance user data](https://github.com/scaleway/initrd/issues/84) |
|softlayer    | IBM Softlayer(Bluemix)| [Instance user metadata](https://github.com/bodenr/cci/wiki/SL-user-metadata) |
|vultr        | Vultr                 | [Instance metadata](https://www.vultr.com/metadata/) |
"

/-- Embedding of `NewCmdCloudProvider`.  The library function
`lib.DetectCloudProvider` takes no argument and its body is not among the
source files, so it is a parameter: `DetectCloudProvider k` is the string that
call number `k` of it returns.  `Run` makes one call and hands the result to
`fmt.Print`; `args` is not used. -/
def NewCmdCloudProvider (DetectCloudProvider : Nat → String) : Command :=
  { Use := "cloud-provider"
    Short := "Detect cloud provider"
    Long := cloudProviderLong
    DisableAutoGenTag := true
    Run := fun _args w =>
      let s := DetectCloudProvider w.detectCalls
      fmtPrint { w with detectCalls := w.detectCalls + 1 } [{ isString := true, text := s }] }

/-! ## The help table of the command -/

/-- Split a character list at every occurrence of `sep`. -/
def splitOnChar (sep : Char) : List Char → List (List Char)
  | [] => [[]]
  | c :: cs =>
    match splitOnChar sep cs with
    | [] => [[]]
    | piece :: pieces => if c = sep then [] :: piece :: pieces else (c :: piece) :: pieces

/-- Drop the spaces at both ends of a table cell. -/
def trimCell (cs : List Char) : List Char :=
  ((cs.dropWhile (fun c => c = ' ')).reverse.dropWhile (fun c => c = ' ')).reverse

/-- One row of the help table. -/
structure HelpRow where
  id : String
  name : String
  technique : String
  deriving DecidableEq, Repr

/-- Read a line of the help text as a table row: a line `|a|b|c|` has the
cells `a`, `b`, `c`. -/
def parseRow (line : List Char) : Option HelpRow :=
  match splitOnChar '|' line with
  | [[], a, b, c, []] =>
    some { id := String.mk (trimCell a), name := String.mk (trimCell b),
           technique := String.mk (trimCell c) }
  | _ => none

/-- The rows of the markdown table in a help text: the table lines without the
header line and the separator line under it. -/
def tableRows (text : String) : List HelpRow :=
  (((splitOnChar '\n' text.data).filterMap parseRow).drop 2)

/-- The provider rows documented by the cloud-provider command. -/
def helpTable : List HelpRow :=
  tableRows cloudProviderLong

/-- Whether the character list `pat` occurs in `cs`. -/
def occursIn (pat : List Char) : List Char → Bool
  | [] => pat.isEmpty
  | c :: cs => pat.isPrefixOf (c :: cs) || occursIn pat cs

/-- Whether a technique cell documents a reverse-DNS lookup: it names the PTR
record. -/
def documentsPTR (technique : String) : Bool :=
  occursIn "PTR record".data technique.data

/-- Whether a technique cell is a markdown link `[title](url)` to a provider's
instance-metadata documentation. -/
def documentsMetadataLink (technique : String) : Bool :=
  "[".data.isPrefixOf technique.data && occursIn "](http".data technique.data
    && ")".data.isSuffixOf technique.data

/-- Modelled from the spec: the two techniques of section 4.1. -/
inductive Technique where
  | httpMetadata
  | dnsPTR
  deriving DecidableEq, Repr

/-- Modelled from the spec: the technique of each probe (section 4.1:
HTTP-metadata probes for AWS, Azure, GCE, DigitalOcean, Scaleway, Vultr and
Softlayer, the DNS-PTR probe for Linode); `unknown` has no probe. -/
def ProviderID.technique : ProviderID → Option Technique
  | .linode => some .dnsPTR
  | .unknown => none
  | _ => some .httpMetadata

/-! ## Probes and transport (sections 4.1 and 4.3) -/

/-- Modelled from the spec: an HTTP response of a metadata endpoint, as the
fake transport of section 4.3 hands it to a probe. -/
structure HttpResponse where
  status : Nat
  headers : List (String × String)
  body : String
  deriving DecidableEq, Repr

/-- Modelled from the spec: the injected transport of section 4.3 with its
per-provider fake responses.  A metadata call gives a response or fails
(connection refused, timeout); the reverse-DNS lookup gives the PTR name or
fails (NXDOMAIN, timeout).  `elapsed` is the latency of each technique. -/
structure Transport where
  http : ProviderID → Except String HttpResponse
  ptr : Except String String
  elapsed : ProviderID → Nat

/-- Modelled from the spec: the technique parameters of the HTTP-metadata
probes (section 3): the success predicate of each of them, which the spec
describes only by representative examples. -/
structure ProbeConfig where
  signature : ProviderID → HttpResponse → Bool

/-- Modelled from the spec: the known provider pattern of the Linode probe
(section 4.1).  The spec names it through its end-to-end example (section 8),
in which the PTR name `host.linode.com` matches: the domain `linode.com`. -/
def linodeDomain : String := "linode.com"

/-- Modelled from the spec: "the PTR result's domain suffix matches the known
provider pattern": the PTR name is the domain, or it ends in a dot followed by
the domain. -/
def domainSuffixMatches (domain ptrName : String) : Bool :=
  ptrName == domain || ("." ++ domain).data.isSuffixOf ptrName.data

/-- Modelled from the spec: the HTTP-metadata probe of section 4.1.  A
reachable endpoint matches iff the response has the provider's expected
shape; a connection failure gives `matched=false` with the error recorded. -/
def httpProbe (cfg : ProbeConfig) (t : Transport) (p : ProviderID) : ProbeResult :=
  match t.http p with
  | .ok resp =>
    { provider := p, matched := cfg.signature p resp, evidence := resp.body,
      elapsed := t.elapsed p, err := none }
  | .error e =>
    { provider := p, matched := false, evidence := "", elapsed := t.elapsed p, err := some e }

/-- Modelled from the spec: the DNS-PTR probe of Linode (section 4.1):
"resolve the host's reverse DNS name; `matched=true` iff the PTR result's
domain suffix matches the known provider pattern; lookup failure
(NXDOMAIN, timeout) gives `matched=false`". -/
def linodeProbe (t : Transport) : ProbeResult :=
  match t.ptr with
  | .ok ptrName =>
    { provider := .linode, matched := domainSuffixMatches linodeDomain ptrName,
      evidence := ptrName, elapsed := t.elapsed .linode, err := none }
  | .error e =>
    { provider := .linode, matched := false, evidence := "",
      elapsed := t.elapsed .linode, err := some e }

/-- Modelled from the spec: `Run` of the probe of provider `p`: the DNS-PTR
technique for Linode, the HTTP-metadata technique for the others. -/
def runProbe (cfg : ProbeConfig) (t : Transport) (p : ProviderID) : ProbeResult :=
  match p.technique with
  | some .dnsPTR => linodeProbe t
  | _ => httpProbe cfg t p

/-- Modelled from the spec: steps 1 and 2 of `Detect` (section 4.2): every
configured probe is run and every result is collected, here in the order of
the probe set. -/
def collectResults (cfg : ProbeConfig) (t : Transport) : List ProbeResult :=
  priorityOrder.map (runProbe cfg t)

/-! ## Statement helpers -/

/-- Record errors on probe results: position by position, an error text is
written to `err` of a result that did not match; a matched result, and a
position without an error text, stay as they are. -/
def withErrors : List ProbeResult → List (Option String) → List ProbeResult
  | [], _ => []
  | rs, [] => rs
  | r :: rs, none :: es => r :: withErrors rs es
  | r :: rs, some e :: es =>
    (if r.matched then r else { r with err := some e }) :: withErrors rs es

/-- The errored result of a probe of provider `p`: `matched=false` and the
error recorded. -/
def erroredResult (p : ProviderID) (elapsed : Nat) (e : String) : ProbeResult :=
  { provider := p, matched := false, evidence := "", elapsed := elapsed, err := some e }

/-- A fake transport on which every metadata endpoint refuses the connection
and the reverse-DNS lookup answers with `ptr`. -/
def unreachableTransport (ptr : Except String String) : Transport :=
  { http := fun _ => .error "connection refused", ptr := ptr, elapsed := fun _ => 0 }

/-! ## Kubernetes object helpers (`vendor/kmodules.xyz/client-go/core/v1/kubernetes.go`)

Slices are embedded as lists of their elements; a nil slice and an empty slice
are both the empty list.  The functions return the slice they built, and the
definitions give the elements of that returned slice.  `UpsertEnvVars` takes
two slices, which may share a backing array, and writes to one while it reads
the other: it is embedded over a memory of cells, with slice headers. -/

/-- The fields of `core.EnvVar`; `ValueFrom` is the optional source reference,
which these helpers copy and never inspect. -/
structure EnvVar where
  Name : String
  Value : String
  ValueFrom : Option String
  deriving DecidableEq, Repr

/-- The field of `core.LocalObjectReference`. -/
structure LocalObjectReference where
  Name : String
  deriving DecidableEq, Repr

/-- The fields of `metav1.OwnerReference`; the two `*bool` fields are
optional booleans. -/
structure OwnerReference where
  APIVersion : String
  Kind : String
  Name : String
  UID : String
  Controller : Option Bool
  BlockOwnerDeletion : Option Bool
  deriving DecidableEq, Repr

/-- The fields of `core.ObjectReference`. -/
structure ObjectReference where
  Kind : String
  Namespace : String
  Name : String
  UID : String
  APIVersion : String
  ResourceVersion : String
  FieldPath : String
  deriving DecidableEq, Repr

/-- The fields of `metav1.ObjectMeta` that the helpers read or write. -/
structure ObjectMeta where
  Name : String
  Namespace : String
  OwnerReferences : List OwnerReference
  Finalizers : List String
  deriving DecidableEq, Repr

/-- The loop of `AddFinalizer` over the finalizers still to be visited: return
`m` as it is at the first name equal to `finalizer`; after the loop, append. -/
def AddFinalizer.loop (m : ObjectMeta) (finalizer : String) : List String → ObjectMeta
  | [] => { m with Finalizers := m.Finalizers ++ [finalizer] }
  | name :: rest => if name = finalizer then m else AddFinalizer.loop m finalizer rest

/-- Embedding of `AddFinalizer`. -/
def AddFinalizer (m : ObjectMeta) (finalizer : String) : ObjectMeta :=
  AddFinalizer.loop m finalizer m.Finalizers

/-- The loop of `HasFinalizer` over the finalizers still to be visited. -/
def HasFinalizer.loop (finalizer : String) : List String → Bool
  | [] => false
  | name :: rest => if name = finalizer then true else HasFinalizer.loop finalizer rest

/-- Embedding of `HasFinalizer`. -/
def HasFinalizer (m : ObjectMeta) (finalizer : String) : Bool :=
  HasFinalizer.loop finalizer m.Finalizers

/-- The loop of `RemoveFinalizer`.  `r := m.Finalizers[:0]` shares its backing
array with `m.Finalizers`, so the state is that array `buf` and `k = len(r)`;
`j` is the index the `range` reads next and `n` the number of iterations left.
Iteration `j` reads `buf[j]` and, when it differs from `finalizer`,
`append(r, name)` writes it to `buf[k]`. -/
def RemoveFinalizer.loop (finalizer : String) :
    Nat → Nat → List String × Nat → List String × Nat
  | 0, _, st => st
  | n + 1, j, (buf, k) =>
    let name := buf.getD j ""
    if name ≠ finalizer then
      RemoveFinalizer.loop finalizer n (j + 1) (buf.set k name, k + 1)
    else
      RemoveFinalizer.loop finalizer n (j + 1) (buf, k)

/-- Embedding of `RemoveFinalizer`: run the loop over the backing array of
`m.Finalizers` and set `m.Finalizers` to `r`, its first `len(r)` elements. -/
def RemoveFinalizer (m : ObjectMeta) (finalizer : String) : ObjectMeta :=
  let st := RemoveFinalizer.loop finalizer m.Finalizers.length 0 (m.Finalizers, 0)
  { m with Finalizers := st.1.take st.2 }

/-- The zero value `core.EnvVar{}`. -/
def zeroEnvVar : EnvVar :=
  { Name := "", Value := "", ValueFrom := none }

/-- The memory that holds the backing arrays of the `[]core.EnvVar` slices of
a call, one cell per element. -/
abbrev Memory := List EnvVar

/-- A slice header: the address of element 0, the length and the capacity.
Two slices share memory when their address ranges overlap, as `s[1:]` and `s`
do. -/
structure Slice where
  ptr : Nat
  len : Nat
  cap : Nat
  deriving DecidableEq, Repr

/-- The elements of a slice in a memory. -/
def Slice.elems (mem : Memory) (s : Slice) : List EnvVar :=
  (List.range s.len).map (fun i => mem.getD (s.ptr + i) zeroEnvVar)

/-- A slice header is valid in a memory: the length is within the capacity and
the backing array, up to the capacity, lies within the memory. -/
def Slice.Valid (mem : Memory) (s : Slice) : Prop :=
  s.len ≤ s.cap ∧ s.ptr + s.cap ≤ mem.length

/-- Model of the built-in `append(s, x)` for one element.  With spare capacity
the element is written in place, behind the last element of `s`; otherwise a
new backing array is allocated behind the memory in use, the elements are
copied and `x` is put behind them.  `growth` is the capacity the runtime picks
for the new array from the old capacity. -/
def goAppend (growth : Nat → Nat) (mem : Memory) (s : Slice) (x : EnvVar) : Memory × Slice :=
  if s.len < s.cap then
    (mem.set (s.ptr + s.len) x, { s with len := s.len + 1 })
  else
    (mem ++ (s.elems mem ++ [x]
        ++ List.replicate (max (growth s.cap) (s.len + 1) - (s.len + 1)) zeroEnvVar),
      { ptr := mem.length, len := s.len + 1, cap := max (growth s.cap) (s.len + 1) })

/-- The loop of the closure `upsert` of `UpsertEnvVars` over the captured
variable `vars`: `i` is the index of the loop and `n` the number of iterations
left.  At the first entry named like `env`, `vars[i] = env` is a write to the
backing array; after the loop, `vars = append(vars, env)`. -/
def UpsertEnvVars.scan (growth : Nat → Nat) (env : EnvVar) (mem : Memory) (vars : Slice) :
    Nat → Nat → Memory × Slice
  | 0, _ => goAppend growth mem vars env
  | n + 1, i =>
    if (mem.getD (vars.ptr + i) zeroEnvVar).Name = env.Name then
      (mem.set (vars.ptr + i) env, vars)
    else UpsertEnvVars.scan growth env mem vars n (i + 1)

/-- The closure `upsert` of `UpsertEnvVars`: the state is the memory and the
captured variable `vars`. -/
def UpsertEnvVars.upsert (growth : Nat → Nat) (st : Memory × Slice) (env : EnvVar) :
    Memory × Slice :=
  UpsertEnvVars.scan growth env st.1 st.2 st.2.len 0

/-- The loop `for _, env := range nv` of `UpsertEnvVars`: iteration `j` reads
`nv[j]` from the memory as it is then and calls `upsert`; `n` is the number of
iterations left. -/
def UpsertEnvVars.run (growth : Nat → Nat) (nv : Slice) :
    Nat → Nat → Memory × Slice → Memory × Slice
  | 0, _, st => st
  | n + 1, j, st =>
    UpsertEnvVars.run growth nv n (j + 1)
      (UpsertEnvVars.upsert growth st (st.1.getD (nv.ptr + j) zeroEnvVar))

/-- Embedding of `UpsertEnvVars`: the memory after the call and the returned
slice `vars`. -/
def UpsertEnvVars (growth : Nat → Nat) (mem : Memory) (vars nv : Slice) : Memory × Slice :=
  UpsertEnvVars.run growth nv nv.len 0 (mem, vars)

/-- The elements of the slice that `UpsertEnvVars` returns. -/
def UpsertEnvVars.result (growth : Nat → Nat) (mem : Memory) (vars nv : Slice) : List EnvVar :=
  (UpsertEnvVars growth mem vars nv).2.elems (UpsertEnvVars growth mem vars nv).1

/-- The loop of `EnsureEnvVarDeleted`: at the first index `i` whose entry is
named `name`, return `append(vars[:i], vars[i+1:]...)`; after the loop, return
`vars`. -/
def EnsureEnvVarDeleted.scan (vars : List EnvVar) (name : String) :
    Nat → List EnvVar → List EnvVar
  | _, [] => vars
  | i, v :: rest =>
    if v.Name = name then vars.take i ++ vars.drop (i + 1)
    else EnsureEnvVarDeleted.scan vars name (i + 1) rest

/-- Embedding of `EnsureEnvVarDeleted`. -/
def EnsureEnvVarDeleted (vars : List EnvVar) (name : String) : List EnvVar :=
  EnsureEnvVarDeleted.scan vars name 0 vars

/-- A Go `map[string]core.LocalObjectReference` as a lookup function. -/
abbrev RefMap := String → Option LocalObjectReference

/-- The assignment `m[key] = ref`. -/
def RefMap.insert (m : RefMap) (key : String) (ref : LocalObjectReference) : RefMap :=
  fun k => if k = key then some ref else m k

/-- Embedding of `MergeLocalObjectReferences`: the first loop records every
entry of `l1` in the map and appends it to the result; the second loop appends
the entries of `l2` whose name is not found in the map. -/
def MergeLocalObjectReferences (l1 l2 : List LocalObjectReference) :
    List LocalObjectReference :=
  let st := l1.foldl
    (fun (st : RefMap × List LocalObjectReference) ref =>
      (st.1.insert ref.Name ref, st.2 ++ [ref]))
    ((fun _ => none), [])
  l2.foldl (fun result ref => if (st.1 ref.Name).isSome then result else result ++ [ref]) st.2

/-- The condition of the search loop of `EnsureOwnerReference`. -/
def sameOwner (owner : ObjectReference) (ref : OwnerReference) : Bool :=
  ref.Kind = owner.Kind && ref.Name = owner.Name

/-- The search loop of `EnsureOwnerReference`: the index of the first
reference with the kind and name of `owner`, `none` for `fi == -1`. -/
def EnsureOwnerReference.find (owner : ObjectReference) : Nat → List OwnerReference → Option Nat
  | _, [] => none
  | i, ref :: rest =>
    if sameOwner owner ref then some i else EnsureOwnerReference.find owner (i + 1) rest

/-- The assignments to `ownerRefs[fi]` in `EnsureOwnerReference`. -/
def EnsureOwnerReference.stamp (owner : ObjectReference) (ref : OwnerReference) :
    OwnerReference :=
  { ref with
    APIVersion := owner.APIVersion
    Kind := owner.Kind
    Name := owner.Name
    UID := owner.UID
    BlockOwnerDeletion :=
      match ref.BlockOwnerDeletion with
      | none => some false
      | some b => some b }

/-- The zero value `metav1.OwnerReference{}`. -/
def emptyOwnerReference : OwnerReference :=
  { APIVersion := "", Kind := "", Name := "", UID := "", Controller := none,
    BlockOwnerDeletion := none }

/-- Embedding of `EnsureOwnerReference`.  The object is passed in and the
object after the call is returned; `owner` is `none` for a nil pointer; the
`panic` on a namespace mismatch is the error result. -/
def EnsureOwnerReference (meta : ObjectMeta) (owner : Option ObjectReference) :
    Except String ObjectMeta :=
  match owner with
  | none => .ok meta
  | some owner =>
    if owner.APIVersion = "" || owner.Kind = "" || owner.Name = "" || owner.UID = "" then
      .ok meta
    else if meta.Namespace ≠ owner.Namespace then
      .error ("owner " ++ owner.Kind ++ " " ++ owner.Name
        ++ " must be from the same namespace as object " ++ meta.Name)
    else
      let ownerRefs := meta.OwnerReferences
      let st : List OwnerReference × Nat :=
        match EnsureOwnerReference.find owner 0 ownerRefs with
        | some fi => (ownerRefs, fi)
        | none => (ownerRefs ++ [emptyOwnerReference], (ownerRefs.length + 1) - 1)
      .ok { meta with
        OwnerReferences :=
          st.1.set st.2 (EnsureOwnerReference.stamp owner (st.1.getD st.2 emptyOwnerReference)) }

/-- Replace the first entry named like `env` by `env`, or put `env` at the end
when no entry has its name: what one call of the closure `upsert` does to the
elements of `vars`, used to reason about it. -/
def replaceOrAppend (env : EnvVar) : List EnvVar → List EnvVar
  | [] => [env]
  | v :: vs => if v.Name = env.Name then env :: vs else v :: replaceOrAppend env vs

/-- The update-or-insert by name on lists of elements: `replaceOrAppend` for
every entry of `nv` in order.  It is what `UpsertEnvVars` computes when `nv`
shares no memory with the backing array of `vars`. -/
def upsertAll (vars nv : List EnvVar) : List EnvVar :=
  nv.foldl (fun vs env => replaceOrAppend env vs) vars

/-! ## Helper lemmas on the precedence rule -/

theorem matchedResults_length (rs : List ProbeResult) :
    (matchedResults rs).length = rs.countP (fun r => r.matched) := by
  simp [matchedResults, List.countP_eq_length_filter]

theorem mem_matchedResults {rs : List ProbeResult} {r : ProbeResult} :
    r ∈ matchedResults rs ↔ r ∈ rs ∧ r.matched = true := by
  simp [matchedResults]

theorem not_mem_priorityOrder {p : ProviderID} (h : p ∉ priorityOrder) : p = .unknown := by
  cases p <;> first | rfl | exact absurd (by decide) h

/-- Distinct providers have distinct positions in the priority order. -/
theorem priority_injective {p q : ProviderID} (h : priority p = priority q) : p = q := by
  revert h
  cases p <;> cases q <;> decide

theorem highestPriority_singleton (r : ProbeResult) : highestPriority [r] = r.provider := by
  obtain ⟨p, m, ev, el, er⟩ := r
  cases p <;> rfl

/-- The three cases of `Detect` agree with the priority rule applied to the
matched results. -/
theorem Detect_eq_highestPriority (rs : List ProbeResult) :
    Detect rs = highestPriority (matchedResults rs) := by
  unfold Detect
  split
  · next h => rw [h]; rfl
  · next r h => rw [h, highestPriority_singleton]
  · next r s rest h => rw [h]

theorem highestPriority_congr {ms ms' : List ProbeResult}
    (h : ∀ p, (∃ r ∈ ms, r.provider = p) ↔ (∃ r ∈ ms', r.provider = p)) :
    highestPriority ms = highestPriority ms' := by
  unfold highestPriority
  have : (fun p => ms.any (fun r => r.provider == p)) =
      (fun p => ms'.any (fun r => r.provider == p)) := by
    funext p
    rw [Bool.eq_iff_iff]
    simpa using h p
  rw [this]

theorem highestPriority_perm {ms ms' : List ProbeResult} (h : ms.Perm ms') :
    highestPriority ms = highestPriority ms' := by
  apply highestPriority_congr
  intro p
  constructor
  · rintro ⟨r, hr, rfl⟩
    exact ⟨r, h.mem_iff.1 hr, rfl⟩
  · rintro ⟨r, hr, rfl⟩
    exact ⟨r, h.mem_iff.2 hr, rfl⟩

theorem indexOf_find_le {l : List ProviderID} {f : ProviderID → Bool} {p q : ProviderID}
    (h : l.find? f = some p) (hq : f q = true) : l.indexOf p ≤ l.indexOf q := by
  induction l with
  | nil => simp at h
  | cons a l ih =>
    by_cases ha : f a = true
    · rw [List.find?_cons_of_pos _ ha] at h
      cases h
      simp
    · have hqa : a ≠ q := fun e => ha (e ▸ hq)
      rw [List.find?_cons_of_neg _ ha] at h
      have hpa : a ≠ p := fun e => ha (e ▸ List.find?_some h)
      rw [List.indexOf_cons_ne _ hpa, List.indexOf_cons_ne _ hqa]
      exact Nat.succ_le_succ (ih h)

/-- What the priority rule returns on a non-empty list of matches: the provider
of one of them, and none of them has a provider earlier in the order. -/
theorem highestPriority_spec (ms : List ProbeResult) (hne : ms ≠ []) :
    (∃ r ∈ ms, highestPriority ms = r.provider) ∧
    ∀ x ∈ ms, priority (highestPriority ms) ≤ priority x.provider := by
  unfold highestPriority
  cases hf : priorityOrder.find? (fun p => ms.any (fun r => r.provider == p)) with
  | none =>
    have hall : ∀ x ∈ ms, x.provider = .unknown := by
      intro x hx
      apply not_mem_priorityOrder
      intro hmem
      have := List.find?_eq_none.1 hf x.provider hmem
      simp at this
      exact this x hx rfl
    refine ⟨?_, ?_⟩
    · obtain ⟨r, rest, rfl⟩ := List.exists_cons_of_ne_nil hne
      exact ⟨r, by simp, by simp [hall r (by simp)]⟩
    · intro x hx
      simp [hall x hx]
  | some p =>
    refine ⟨?_, ?_⟩
    · have := List.find?_some hf
      simp at this
      obtain ⟨r, hr, hp⟩ := this
      exact ⟨r, hr, by simp [hp]⟩
    · intro x hx
      simp only [Option.getD_some]
      exact indexOf_find_le hf (by simp; exact ⟨x, hx, rfl⟩)

/-- Results that agree position by position, up to replacing one unmatched
result by another unmatched one, have the same matched results. -/
theorem matchedResults_of_pointwise {rs rs' : List ProbeResult}
    (h : List.Forall₂ (fun a b => a = b ∨ (a.matched = false ∧ b.matched = false)) rs rs') :
    matchedResults rs' = matchedResults rs := by
  induction h with
  | nil => rfl
  | cons hab _ ih =>
    unfold matchedResults at ih ⊢
    rcases hab with rfl | ⟨ha, hb⟩
    · simp [List.filter_cons, ih]
    · simp [List.filter_cons, ha, hb, ih]

theorem withErrors_pointwise (rs : List ProbeResult) (es : List (Option String)) :
    List.Forall₂ (fun a b => a = b ∨ (a.matched = false ∧ b.matched = false))
      rs (withErrors rs es) := by
  induction rs generalizing es with
  | nil => simp [withErrors]
  | cons r rs ih =>
    cases es with
    | nil =>
      simp only [withErrors]
      exact List.forall₂_same.2 (fun _ _ => Or.inl rfl)
    | cons e es =>
      cases e with
      | none => exact List.Forall₂.cons (Or.inl rfl) (ih es)
      | some e =>
        simp only [withErrors]
        refine List.Forall₂.cons ?_ (ih es)
        cases hm : r.matched <;> simp [hm]

theorem runProbe_provider (cfg : ProbeConfig) (t : Transport) (p : ProviderID) :
    (runProbe cfg t p).provider = p ∨ (runProbe cfg t p).provider = .linode := by
  unfold runProbe
  split
  · right
    unfold linodeProbe
    cases t.ptr <;> rfl
  · left
    unfold httpProbe
    cases t.http p <;> rfl

/-- No collected result carries the provider `unknown`: each comes from one
of the eight probes. -/
theorem collectResults_provider (cfg : ProbeConfig) (t : Transport) (r : ProbeResult)
    (hr : r ∈ collectResults cfg t) : r.provider ≠ .unknown := by
  obtain ⟨p, hp, rfl⟩ := List.mem_map.1 hr
  rcases runProbe_provider cfg t p with h | h
  · rw [h]
    intro hu
    rw [hu] at hp
    exact absurd hp (by decide)
  · rw [h]
    decide

theorem domainSuffixMatches_iff (domain ptrName : String) :
    domainSuffixMatches domain ptrName = true ↔
      (ptrName = domain ∨ ∃ host : String, ptrName = host ++ "." ++ domain) := by
  unfold domainSuffixMatches
  rw [Bool.or_eq_true, beq_iff_eq, List.isSuffixOf_iff_suffix]
  constructor
  · rintro (h | ⟨pre, hpre⟩)
    · exact Or.inl h
    · refine Or.inr ⟨String.mk pre, ?_⟩
      apply String.ext
      simp [String.data_append, ← hpre]
  · rintro (h | ⟨host, hhost⟩)
    · exact Or.inl h
    · refine Or.inr ⟨host.data, ?_⟩
      rw [hhost]
      simp [String.data_append]

/-! ## The command -/

/-- C1: for every argument list, running the cloud-provider command makes
one call of `DetectCloudProvider` and appends to standard output exactly the
string that call returned, with nothing before or after it (no newline); the
resulting state is the same for every argument list. -/
theorem cloudProvider_run_prints_detect (lib : Nat → String) (args : List String) (w : World) :
    ((NewCmdCloudProvider lib).Run args w).stdout = w.stdout ++ lib w.detectCalls ∧
    ((NewCmdCloudProvider lib).Run args w).detectCalls = w.detectCalls + 1 ∧
    ∀ args' : List String,
      (NewCmdCloudProvider lib).Run args' w = (NewCmdCloudProvider lib).Run args w := by
  refine ⟨?_, rfl, fun _ => rfl⟩
  show w.stdout ++ ("" ++ lib w.detectCalls ++ "") = w.stdout ++ lib w.detectCalls
  simp

/-! ## The precedence rule -/

/-- C2: when exactly one of the collected results has `matched=true`, `Detect`
returns the provider of that result. -/
theorem Detect_unique_match (rs : List ProbeResult) (r : ProbeResult)
    (hone : rs.countP (fun x => x.matched) = 1) (hr : r ∈ rs) (hm : r.matched = true) :
    Detect rs = r.provider := by
  have hlen : (matchedResults rs).length = 1 := by rw [matchedResults_length, hone]
  obtain ⟨x, hx⟩ := List.length_eq_one.1 hlen
  have hrx : r = x := by
    have : r ∈ matchedResults rs := mem_matchedResults.2 ⟨hr, hm⟩
    rw [hx] at this
    simpa using this
  unfold Detect
  rw [hx, hrx]

/-- Witness of C2: the AWS probe alone matched among eight results. -/
theorem Detect_unique_match_witness :
    Detect (⟨.aws, true, "instanceId", 3, none⟩ ::
      (priorityOrder.tail.map (fun p => erroredResult p 5 "connection refused"))) = .aws :=
  Detect_unique_match _ ⟨.aws, true, "instanceId", 3, none⟩ (by decide) (by simp) rfl

/-- C3: when none of the collected results has `matched=true`, `Detect`
returns `unknown`. -/
theorem Detect_no_match (rs : List ProbeResult) (hnone : ∀ r ∈ rs, r.matched = false) :
    Detect rs = .unknown := by
  have : matchedResults rs = [] := by
    unfold matchedResults
    rw [List.filter_eq_nil_iff]
    intro r hr
    simp [hnone r hr]
  unfold Detect
  rw [this]

/-- Witness of C3: every endpoint refused and the DNS lookup failed. -/
theorem Detect_no_match_witness :
    Detect (priorityOrder.map (fun p => erroredResult p 5 "connection refused")) = .unknown :=
  Detect_no_match _ (by decide)

/-- C4: when two or more of the collected results have `matched=true`,
`Detect` returns the provider of a matched result, and no matched result has a
provider that comes earlier in the fixed priority order; that order is aws,
azure, digitalocean, gce, linode, scaleway, softlayer, vultr, the order of the
rows of the command's help table. -/
theorem Detect_multi_match (rs : List ProbeResult)
    (htwo : 2 ≤ rs.countP (fun x => x.matched)) :
    (∃ r ∈ rs, r.matched = true ∧ Detect rs = r.provider) ∧
    (∀ x ∈ rs, x.matched = true → priority (Detect rs) ≤ priority x.provider) ∧
    priorityOrder =
      [.aws, .azure, .digitalocean, .gce, .linode, .scaleway, .softlayer, .vultr] ∧
    priorityOrder.map ProviderID.toString = helpTable.map (fun row => row.id) := by
  have hne : matchedResults rs ≠ [] := by
    intro h
    have := matchedResults_length rs
    rw [h] at this
    simp at this
    omega
  obtain ⟨⟨r, hr, hd⟩, hmin⟩ := highestPriority_spec (matchedResults rs) hne
  rw [← Detect_eq_highestPriority] at hd hmin
  refine ⟨⟨r, (mem_matchedResults.1 hr).1, (mem_matchedResults.1 hr).2, hd⟩, ?_, rfl, ?_⟩
  · intro x hx hxm
    exact hmin x (mem_matchedResults.2 ⟨hx, hxm⟩)
  · decide!

/-- Witness of C4: the GCE and the Azure probes both matched; Azure comes
first in the priority order. -/
theorem Detect_multi_match_witness :
    Detect [⟨.gce, true, "Metadata-Flavor", 2, none⟩, ⟨.vultr, false, "", 9, none⟩,
      ⟨.azure, true, "compute", 4, none⟩] = .azure ∧
    ∀ x ∈ [(⟨.gce, true, "Metadata-Flavor", 2, none⟩ : ProbeResult),
        ⟨.vultr, false, "", 9, none⟩, ⟨.azure, true, "compute", 4, none⟩],
      x.matched = true →
      priority (Detect [⟨.gce, true, "Metadata-Flavor", 2, none⟩, ⟨.vultr, false, "", 9, none⟩,
        ⟨.azure, true, "compute", 4, none⟩]) ≤ priority x.provider :=
  ⟨by decide, (Detect_multi_match _ (by decide)).2.1⟩

/-- C5: `Detect` never reports a provider that did not match.  For every list
of results, the provider that `Detect` returns is `unknown` or the provider of
some result with `matched=true`.  Every result comes from one of the eight
probes, so no matched result carries the provider `unknown`; then `Detect`
returns `unknown` only when no result matched.  This holds in particular for
the results collected from the probes, in whatever order. -/
theorem Detect_reports_only_matches (rs : List ProbeResult) :
    (Detect rs = .unknown ∨ ∃ r ∈ rs, r.matched = true ∧ Detect rs = r.provider) ∧
    ((∀ r ∈ rs, r.matched = true → r.provider ≠ .unknown) →
      Detect rs = .unknown → ∀ r ∈ rs, r.matched = false) ∧
    (∀ (cfg : ProbeConfig) (t : Transport), rs.Perm (collectResults cfg t) →
      Detect rs = .unknown → ∀ r ∈ rs, r.matched = false) := by
  have hkey : (∀ r ∈ rs, r.matched = true → r.provider ≠ .unknown) →
      Detect rs = .unknown → ∀ r ∈ rs, r.matched = false := by
    intro hprobe hu x hx
    by_cases hne : matchedResults rs = []
    · cases hxm : x.matched
      · rfl
      · have : x ∈ matchedResults rs := mem_matchedResults.2 ⟨hx, hxm⟩
        rw [hne] at this
        simp at this
    · obtain ⟨⟨r, hr, hd⟩, _⟩ := highestPriority_spec (matchedResults rs) hne
      rw [← Detect_eq_highestPriority] at hd
      have hrm := mem_matchedResults.1 hr
      exact absurd (hd.symm.trans hu) (hprobe r hrm.1 hrm.2)
  refine ⟨?_, hkey, ?_⟩
  · by_cases hne : matchedResults rs = []
    · exact Or.inl (by unfold Detect; rw [hne])
    · obtain ⟨⟨r, hr, hd⟩, _⟩ := highestPriority_spec (matchedResults rs) hne
      rw [← Detect_eq_highestPriority] at hd
      exact Or.inr ⟨r, (mem_matchedResults.1 hr).1, (mem_matchedResults.1 hr).2, hd⟩
  · intro cfg t hperm
    apply hkey
    intro r hr _
    exact collectResults_provider cfg t r (hperm.mem_iff.1 hr)

/-- Witness of C5: the eight probes ran, none matched, and `Detect` returned
`unknown`. -/
theorem Detect_reports_only_matches_witness :
    ∀ r ∈ priorityOrder.map (fun p => erroredResult p 5 "connection refused"),
      r.matched = false :=
  (Detect_reports_only_matches
      (priorityOrder.map (fun p => erroredResult p 5 "connection refused"))).2.1
    (by decide) (by decide)

/-- C6: a probe that ends in an error counts as a non-match and does not
abort `Detect`.  Recording errors on any of the results that did not match
leaves the answer of `Detect` unchanged; replacing any result by an errored
one gives the answer that the same result with `matched=false` gives; and
`Detect` returns a provider on every list of results. -/
theorem Detect_error_is_nonmatch (rs : List ProbeResult) :
    (∀ es : List (Option String), Detect (withErrors rs es) = Detect rs) ∧
    (∀ (pre post : List ProbeResult) (r : ProbeResult) (p : ProviderID) (t : Nat) (e : String),
      Detect (pre ++ erroredResult p t e :: post)
        = Detect (pre ++ { r with matched := false } :: post)) ∧
    ∃ p : ProviderID, Detect rs = p := by
  refine ⟨fun es => ?_, fun pre post r p t e => ?_, ⟨_, rfl⟩⟩
  · rw [Detect_eq_highestPriority, Detect_eq_highestPriority,
      matchedResults_of_pointwise (withErrors_pointwise rs es)]
  · rw [Detect_eq_highestPriority, Detect_eq_highestPriority]
    congr 1
    apply matchedResults_of_pointwise
    have hsame : ∀ l : List ProbeResult,
        List.Forall₂ (fun a b => a = b ∨ (a.matched = false ∧ b.matched = false)) l l :=
      fun l => List.forall₂_same.2 (fun _ _ => Or.inl rfl)
    exact List.rel_append (hsame pre) (List.Forall₂.cons (Or.inr ⟨rfl, rfl⟩) (hsame post))

/-- C7: the provider that `Detect` returns does not depend on the order in
which the results were collected: a list of results and any permutation of it
give the same provider. -/
theorem Detect_perm (rs rs' : List ProbeResult) (h : rs.Perm rs') :
    Detect rs = Detect rs' := by
  have hp : (matchedResults rs).Perm (matchedResults rs') := h.filter _
  rw [Detect_eq_highestPriority, Detect_eq_highestPriority]
  exact highestPriority_perm hp

/-- Witness of C7: two matched results in either order of completion. -/
theorem Detect_perm_witness :
    Detect [⟨.vultr, true, "v1", 7, none⟩, ⟨.digitalocean, true, "droplet_id", 2, none⟩]
      = Detect [⟨.digitalocean, true, "droplet_id", 2, none⟩, ⟨.vultr, true, "v1", 7, none⟩] :=
  Detect_perm _ _ (List.Perm.swap _ _ _)

/-! ## The help table -/

/-- C8: the ids in the help table of the cloud-provider command are the eight
members of `ProviderID` other than `unknown`, each listed once; the technique
documented for linode names the PTR record, and linode is the only row for
which it does: every other row documents a link to the provider's
instance-metadata pages. -/
theorem helpTable_documents_providers (lib : Nat → String) :
    (tableRows (NewCmdCloudProvider lib).Long).map (fun row => row.id)
      = ["aws", "azure", "digitalocean", "gce", "linode", "scaleway", "softlayer", "vultr"] ∧
    ((tableRows (NewCmdCloudProvider lib).Long).map (fun row => row.id)).Nodup ∧
    (∀ p : ProviderID,
      p.toString ∈ (tableRows (NewCmdCloudProvider lib).Long).map (fun row => row.id)
        ↔ p ≠ .unknown) ∧
    (∀ row ∈ tableRows (NewCmdCloudProvider lib).Long,
      (documentsPTR row.technique = true ↔ row.id = "linode") ∧
      (documentsMetadataLink row.technique = true ↔ row.id ≠ "linode")) ∧
    (∀ p : ProviderID, p.technique = some .dnsPTR ↔ p = .linode) := by
  have hrows : tableRows (NewCmdCloudProvider lib).Long = helpTable := rfl
  rw [hrows]
  refine ⟨by decide!, by decide!, ?_, by decide!, ?_⟩
  · have hids : helpTable.map (fun row => row.id)
        = ["aws", "azure", "digitalocean", "gce", "linode", "scaleway", "softlayer", "vultr"] := by
      decide!
    intro p
    rw [hids]
    cases p <;> decide
  · intro p
    cases p <;> decide

/-! ## The Linode probe -/

theorem httpProbe_unreachable (cfg : ProbeConfig) (t : Transport) (p : ProviderID) (e : String)
    (h : t.http p = .error e) : (httpProbe cfg t p).matched = false := by
  simp [httpProbe, h]

/-- C9: the Linode probe reports `matched=true` iff the reverse-DNS lookup
succeeds and the PTR name has the Linode domain as its domain suffix (it is
`linode.com` or ends in `.linode.com`); a failed lookup gives `matched=false`.
When every metadata endpoint is unreachable and the PTR name is
`host.linode.com`, `Detect` returns `linode`, in whatever order the results
were collected. -/
theorem linodeProbe_matched (cfg : ProbeConfig) (t : Transport) :
    runProbe cfg t .linode = linodeProbe t ∧
    ((linodeProbe t).matched = true ↔
      ∃ ptrName : String, t.ptr = .ok ptrName ∧
        (ptrName = "linode.com" ∨ ∃ host : String, ptrName = host ++ "." ++ "linode.com")) ∧
    (∀ e, t.ptr = .error e → (linodeProbe t).matched = false) ∧
    ((∀ p, ∃ e, t.http p = .error e) → t.ptr = .ok "host.linode.com" →
      ∀ results : List ProbeResult, results.Perm (collectResults cfg t) →
        Detect results = .linode) := by
  refine ⟨rfl, ?_, ?_, ?_⟩
  · unfold linodeProbe
    cases h : t.ptr with
    | error e => simp
    | ok ptrName =>
      simp only [Except.ok.injEq, exists_eq_left']
      exact domainSuffixMatches_iff linodeDomain ptrName
  · intro e h
    simp [linodeProbe, h]
  · intro hhttp hptr results hperm
    have hlin : (linodeProbe t).matched = true := by
      simp only [linodeProbe, hptr]
      decide
    have hoff : ∀ p, (httpProbe cfg t p).matched = false := by
      intro p
      obtain ⟨e, he⟩ := hhttp p
      exact httpProbe_unreachable cfg t p e he
    have hprov : (linodeProbe t).provider = .linode := by
      unfold linodeProbe
      cases t.ptr <;> rfl
    have hcollected : matchedResults (collectResults cfg t) = [linodeProbe t] := by
      simp [matchedResults, collectResults, priorityOrder, runProbe, ProviderID.technique,
        List.filter_cons, hlin, hoff]
    have hmatched : (matchedResults results).Perm (matchedResults (collectResults cfg t)) :=
      hperm.filter _
    rw [Detect_eq_highestPriority, highestPriority_perm hmatched, hcollected,
      highestPriority_singleton, hprov]

/-- Witness of C9: every metadata endpoint refuses the connection and the PTR
name is `host.linode.com`. -/
theorem linodeProbe_matched_witness :
    Detect (collectResults ⟨fun _ _ => false⟩
      (unreachableTransport (.ok "host.linode.com"))) = .linode :=
  (linodeProbe_matched ⟨fun _ _ => false⟩
      (unreachableTransport (.ok "host.linode.com"))).2.2.2
    (fun _ => ⟨"connection refused", rfl⟩) rfl _ (List.Perm.refl _)

/-! ## Helper lemmas on the Kubernetes object helpers -/

theorem AddFinalizer_loop_eq (m : ObjectMeta) (finalizer : String) (l : List String) :
    AddFinalizer.loop m finalizer l =
      if finalizer ∈ l then m else { m with Finalizers := m.Finalizers ++ [finalizer] } := by
  induction l with
  | nil => simp [AddFinalizer.loop]
  | cons name rest ih =>
    unfold AddFinalizer.loop
    by_cases h : name = finalizer
    · simp [h]
    · have h' : ¬ finalizer = name := fun e => h e.symm
      simp [h, h', ih]

theorem HasFinalizer_loop_eq (finalizer : String) (l : List String) :
    HasFinalizer.loop finalizer l = decide (finalizer ∈ l) := by
  induction l with
  | nil => simp [HasFinalizer.loop]
  | cons name rest ih =>
    unfold HasFinalizer.loop
    by_cases h : name = finalizer
    · simp [h]
    · have h' : ¬ finalizer = name := fun e => h e.symm
      simp [h, h', ih]

/-- The in-place filter of `RemoveFinalizer`: when the first `k` cells of the
backing array hold the kept names among the first `j` original ones, `k ≤ j`,
and the cells from `j` on are still the original ones, the loop ends with `r`
holding the kept names of the whole original slice. -/
theorem RemoveFinalizer_loop_spec (finalizer : String) (orig : List String) :
    ∀ (n j : Nat) (buf : List String) (k : Nat), j + n = orig.length → k ≤ j →
      buf.length = orig.length →
      buf.take k = (orig.take j).filter (fun name => decide (name ≠ finalizer)) →
      buf.drop j = orig.drop j →
      (RemoveFinalizer.loop finalizer n j (buf, k)).1.take
          (RemoveFinalizer.loop finalizer n j (buf, k)).2
        = orig.filter (fun name => decide (name ≠ finalizer)) := by
  intro n
  induction n with
  | zero =>
    intro j buf k hj _ _ htake _
    simp only [RemoveFinalizer.loop]
    rw [htake, List.take_of_length_le (by omega)]
  | succ n ih =>
    intro j buf k hj hk hlen htake hdrop
    have hjlt : j < orig.length := by omega
    have hjb : j < buf.length := by omega
    have hread : buf.getD j "" = orig[j] := by
      have h1 : (buf.drop j)[0]? = (orig.drop j)[0]? := by rw [hdrop]
      simp only [List.getElem?_drop, Nat.add_zero] at h1
      rw [List.getD_eq_getElem?_getD, h1, List.getElem?_eq_getElem hjlt]
      rfl
    have hdrop' : buf.drop (j + 1) = orig.drop (j + 1) := by
      have := congrArg (List.drop 1) hdrop
      simpa [List.drop_drop, Nat.add_comm] using this
    have horig : orig.take (j + 1) = orig.take j ++ [orig[j]] := by
      rw [List.take_succ, List.getElem?_eq_getElem hjlt]
      rfl
    unfold RemoveFinalizer.loop
    simp only [hread]
    by_cases hname : orig[j] = finalizer
    · simp only [hname, ne_eq, not_true_eq_false, if_false]
      apply ih (j + 1) buf k (by omega) (by omega) hlen _ hdrop'
      rw [horig, List.filter_append, ← htake]
      simp [hname]
    · simp only [ne_eq, hname, not_false_eq_true, if_true]
      apply ih (j + 1) (buf.set k orig[j]) (k + 1) (by omega) (by omega) (by simpa using hlen)
      · rw [horig, List.filter_append, ← htake, List.take_succ]
        have hkb : k < buf.length := by omega
        have hset : (buf.take k).set k orig[j] = buf.take k :=
          List.set_eq_of_length_le (by simp)
        simp [List.set_take, hname, List.getElem?_set, hkb, hset]
      · rw [List.drop_set_of_lt _ _ (by omega), hdrop']

theorem RemoveFinalizer_Finalizers (m : ObjectMeta) (finalizer : String) :
    (RemoveFinalizer m finalizer).Finalizers
      = m.Finalizers.filter (fun name => decide (name ≠ finalizer)) := by
  unfold RemoveFinalizer
  exact RemoveFinalizer_loop_spec finalizer m.Finalizers m.Finalizers.length 0 m.Finalizers 0
    (by simp) (Nat.le_refl 0) rfl (by simp) rfl

theorem AddFinalizer_Finalizers (m : ObjectMeta) (finalizer : String) :
    (AddFinalizer m finalizer).Finalizers =
      if finalizer ∈ m.Finalizers then m.Finalizers else m.Finalizers ++ [finalizer] := by
  unfold AddFinalizer
  rw [AddFinalizer_loop_eq]
  split <;> rfl

theorem HasFinalizer_eq (m : ObjectMeta) (finalizer : String) :
    HasFinalizer m finalizer = decide (finalizer ∈ m.Finalizers) :=
  HasFinalizer_loop_eq finalizer m.Finalizers

/-- The loop of `EnsureEnvVarDeleted`, started at index `pre.length` with the
entries `pre` behind it, erases the first entry named `name` of the rest. -/
theorem EnsureEnvVarDeleted_scan_eq (name : String) (rest : List EnvVar) :
    ∀ pre : List EnvVar,
      EnsureEnvVarDeleted.scan (pre ++ rest) name pre.length rest
        = pre ++ rest.eraseP (fun v => decide (v.Name = name)) := by
  induction rest with
  | nil => intro pre; simp [EnsureEnvVarDeleted.scan]
  | cons v rest ih =>
    intro pre
    unfold EnsureEnvVarDeleted.scan
    by_cases h : v.Name = name
    · simp [h, List.take_append_eq_append_take, List.drop_append_eq_append_drop]
    · have := ih (pre ++ [v])
      simp only [List.append_assoc, List.singleton_append, List.length_append,
        List.length_singleton] at this
      simp [h, this]

theorem EnsureEnvVarDeleted_eq_eraseP (vars : List EnvVar) (name : String) :
    EnsureEnvVarDeleted vars name = vars.eraseP (fun v => decide (v.Name = name)) := by
  have := EnsureEnvVarDeleted_scan_eq name vars []
  simpa [EnsureEnvVarDeleted] using this

theorem Slice.elems_length (mem : Memory) (s : Slice) : (s.elems mem).length = s.len := by
  simp [Slice.elems]

theorem Slice.elems_getElem (mem : Memory) (s : Slice) (i : Nat) :
    (s.elems mem)[i]? =
      if i < s.len then some (mem.getD (s.ptr + i) zeroEnvVar) else none := by
  unfold Slice.elems
  by_cases h : i < s.len
  · rw [if_pos h, List.getElem?_map, List.getElem?_range h]
    rfl
  · rw [if_neg h, List.getElem?_eq_none (by simpa using h)]

theorem getD_set_same (mem : Memory) (a : Nat) (x : EnvVar) (h : a < mem.length) :
    (mem.set a x).getD a zeroEnvVar = x := by
  simp [List.getD_eq_getElem?_getD, h]

theorem getD_set_other (mem : Memory) (a b : Nat) (x : EnvVar) (h : a ≠ b) :
    (mem.set a x).getD b zeroEnvVar = mem.getD b zeroEnvVar := by
  simp [List.getD_eq_getElem?_getD, List.getElem?_set_ne h]

theorem getD_append_old (mem more : Memory) (a : Nat) (h : a < mem.length) :
    (mem ++ more).getD a zeroEnvVar = mem.getD a zeroEnvVar := by
  simp [List.getD_eq_getElem?_getD, List.getElem?_append_left h]

theorem getD_append_new (mem more : Memory) (i : Nat) :
    (mem ++ more).getD (mem.length + i) zeroEnvVar = more.getD i zeroEnvVar := by
  simp [List.getD_eq_getElem?_getD, List.getElem?_append_right]

theorem replaceOrAppend_eq_set (env : EnvVar) (l : List EnvVar) :
    ∀ k : Nat, (∃ v, l[k]? = some v ∧ v.Name = env.Name) →
      (∀ k' v, k' < k → l[k']? = some v → v.Name ≠ env.Name) →
      replaceOrAppend env l = l.set k env := by
  induction l with
  | nil => intro k h; simp at h
  | cons w ws ih =>
    intro k hk hbefore
    unfold replaceOrAppend
    cases k with
    | zero =>
      obtain ⟨v, hv, hname⟩ := hk
      simp only [List.getElem?_cons_zero, Option.some.injEq] at hv
      subst hv
      simp [hname]
    | succ k =>
      have hw : w.Name ≠ env.Name := hbefore 0 w (Nat.succ_pos k) (by simp)
      rw [if_neg hw, List.set_cons_succ]
      congr 1
      apply ih k
      · simpa using hk
      · intro k' v hk' hv
        exact hbefore (k' + 1) v (Nat.succ_lt_succ hk') (by simpa using hv)

theorem replaceOrAppend_eq_append (env : EnvVar) (l : List EnvVar)
    (h : ∀ v ∈ l, v.Name ≠ env.Name) : replaceOrAppend env l = l ++ [env] := by
  induction l with
  | nil => rfl
  | cons w ws ih =>
    unfold replaceOrAppend
    rw [if_neg (h w (by simp)), ih (fun v hv => h v (by simp [hv]))]
    rfl

/-- What the loop of `upsert` does: a write at the first index from `i` on
whose entry is named like `env`, or an `append` when there is none. -/
theorem UpsertEnvVars_scan_cases (growth : Nat → Nat) (env : EnvVar) (mem : Memory)
    (vars : Slice) :
    ∀ n i : Nat, i + n = vars.len →
      (∃ k, i ≤ k ∧ k < vars.len ∧
        (mem.getD (vars.ptr + k) zeroEnvVar).Name = env.Name ∧
        (∀ k', i ≤ k' → k' < k → (mem.getD (vars.ptr + k') zeroEnvVar).Name ≠ env.Name) ∧
        UpsertEnvVars.scan growth env mem vars n i = (mem.set (vars.ptr + k) env, vars)) ∨
      ((∀ k', i ≤ k' → k' < vars.len →
          (mem.getD (vars.ptr + k') zeroEnvVar).Name ≠ env.Name) ∧
        UpsertEnvVars.scan growth env mem vars n i = goAppend growth mem vars env) := by
  intro n
  induction n with
  | zero =>
    intro i hi
    right
    exact ⟨fun k' h1 h2 => by omega, rfl⟩
  | succ n ih =>
    intro i hi
    unfold UpsertEnvVars.scan
    by_cases h : (mem.getD (vars.ptr + i) zeroEnvVar).Name = env.Name
    · left
      exact ⟨i, Nat.le_refl i, by omega, h, fun k' h1 h2 => by omega, by rw [if_pos h]⟩
    · rw [if_neg h]
      rcases ih (i + 1) (by omega) with ⟨k, hk1, hk2, hk3, hk4, hk5⟩ | ⟨hnone, heq⟩
      · left
        refine ⟨k, by omega, hk2, hk3, fun k' h1 h2 => ?_, hk5⟩
        by_cases hk' : k' = i
        · rw [hk']; exact h
        · exact hk4 k' (by omega) h2
      · right
        refine ⟨fun k' h1 h2 => ?_, heq⟩
        by_cases hk' : k' = i
        · rw [hk']; exact h
        · exact hnone k' (by omega) h2

theorem Slice.elems_set (mem : Memory) (s : Slice) (k : Nat) (x : EnvVar)
    (hk : k < s.len) (hmem : s.ptr + k < mem.length) :
    s.elems (mem.set (s.ptr + k) x) = (s.elems mem).set k x := by
  apply List.ext_getElem?
  intro i
  rw [Slice.elems_getElem, List.getElem?_set, Slice.elems_getElem, Slice.elems_length]
  by_cases hik : k = i
  · subst hik
    rw [if_pos hk, getD_set_same mem _ x hmem]
    simp [hk]
  · have hne : s.ptr + k ≠ s.ptr + i := by omega
    rw [getD_set_other mem _ _ x hne]
    simp [hik]

theorem goAppend_elems (growth : Nat → Nat) (mem : Memory) (s : Slice) (x : EnvVar)
    (hs : s.Valid mem) :
    (goAppend growth mem s x).2.elems (goAppend growth mem s x).1 = s.elems mem ++ [x] := by
  obtain ⟨h1, h2⟩ := hs
  unfold goAppend
  apply List.ext_getElem?
  intro i
  by_cases hcap : s.len < s.cap
  · simp only [if_pos hcap]
    rw [Slice.elems_getElem]
    by_cases hi : i < s.len
    · have hne : s.ptr + s.len ≠ s.ptr + i := by omega
      rw [List.getElem?_append_left (by simpa [Slice.elems_length] using hi),
        Slice.elems_getElem, if_pos hi, if_pos (by simp; omega), getD_set_other mem _ _ x hne]
    · by_cases hi' : i = s.len
      · subst hi'
        rw [List.getElem?_append_right (by simp [Slice.elems_length]),
          getD_set_same mem _ x (by omega)]
        simp [Slice.elems_length]
      · rw [if_neg (by simp; omega), List.getElem?_eq_none (by simp [Slice.elems_length]; omega)]
  · simp only [if_neg hcap]
    rw [Slice.elems_getElem]
    simp only [getD_append_new]
    by_cases hi : i < s.len + 1
    · rw [if_pos hi, List.getD_eq_getElem?_getD,
        List.getElem?_append_left (by simp [Slice.elems_length]; omega)]
      have hlt : i < (s.elems mem ++ [x]).length := by simp [Slice.elems_length]; omega
      rw [List.getElem?_eq_getElem hlt]
      rfl
    · rw [if_neg hi, List.getElem?_eq_none (by simp [Slice.elems_length]; omega)]

theorem upsertAll_cons (vars : List EnvVar) (env : EnvVar) (nv : List EnvVar) :
    upsertAll vars (env :: nv) = upsertAll (replaceOrAppend env vars) nv := by
  simp [upsertAll]

theorem replaceOrAppend_names (env : EnvVar) (vars : List EnvVar) :
    (replaceOrAppend env vars).map (fun v => v.Name) =
      if env.Name ∈ vars.map (fun v => v.Name) then vars.map (fun v => v.Name)
      else vars.map (fun v => v.Name) ++ [env.Name] := by
  induction vars with
  | nil => simp [replaceOrAppend]
  | cons v vs ih =>
    unfold replaceOrAppend
    by_cases h : v.Name = env.Name
    · simp [h]
    · have h' : ¬ env.Name = v.Name := fun e => h e.symm
      simp only [h, if_false, List.map_cons, ih, List.mem_cons, h', false_or]
      split <;> simp

theorem replaceOrAppend_find (env : EnvVar) (n : String) (vars : List EnvVar) :
    (replaceOrAppend env vars).find? (fun v => decide (v.Name = n)) =
      if env.Name = n then some env else vars.find? (fun v => decide (v.Name = n)) := by
  induction vars with
  | nil =>
    by_cases hn : env.Name = n <;> simp [replaceOrAppend, hn]
  | cons v vs ih =>
    unfold replaceOrAppend
    by_cases h : v.Name = env.Name
    · rw [if_pos h]
      by_cases hn : env.Name = n
      · rw [if_pos hn, List.find?_cons_of_pos _ (by simpa using hn)]
      · rw [if_neg hn, List.find?_cons_of_neg _ (by simpa using hn),
          List.find?_cons_of_neg _ (by simpa [h] using hn)]
    · rw [if_neg h]
      by_cases hv : v.Name = n
      · have hn : ¬ env.Name = n := fun e => h (hv.trans e.symm)
        rw [if_neg hn, List.find?_cons_of_pos _ (by simpa using hv),
          List.find?_cons_of_pos _ (by simpa using hv)]
      · rw [List.find?_cons_of_neg _ (by simpa using hv),
          List.find?_cons_of_neg _ (by simpa using hv), ih]

theorem replaceOrAppend_getElem (env : EnvVar) (vars : List EnvVar) :
    ∀ (i : Nat) (v : EnvVar), vars[i]? = some v → v.Name ≠ env.Name →
      (replaceOrAppend env vars)[i]? = some v := by
  induction vars with
  | nil => intro i v h; simp at h
  | cons w ws ih =>
    intro i v h hne
    unfold replaceOrAppend
    cases i with
    | zero =>
      simp only [List.getElem?_cons_zero, Option.some.injEq] at h
      subst h
      simp [hne]
    | succ i =>
      simp only [List.getElem?_cons_succ] at h
      by_cases hw : w.Name = env.Name
      · simp [hw, h]
      · simp [hw, ih i v h hne]

theorem upsertAll_getElem (nv : List EnvVar) :
    ∀ (vars : List EnvVar) (i : Nat) (v : EnvVar), vars[i]? = some v →
      v.Name ∉ nv.map (fun e => e.Name) → (upsertAll vars nv)[i]? = some v := by
  induction nv with
  | nil => intro vars i v h _; simpa [upsertAll] using h
  | cons env nv ih =>
    intro vars i v h hnot
    rw [upsertAll_cons]
    simp only [List.map_cons, List.mem_cons, not_or] at hnot
    exact ih _ i v (replaceOrAppend_getElem env vars i v h hnot.1) hnot.2

theorem upsertAll_find (n : String) (nv : List EnvVar) :
    ∀ vars : List EnvVar,
      (upsertAll vars nv).find? (fun v => decide (v.Name = n)) =
        (nv.reverse.find? (fun v => decide (v.Name = n))).or
          (vars.find? (fun v => decide (v.Name = n))) := by
  induction nv with
  | nil => intro vars; simp [upsertAll]
  | cons env nv ih =>
    intro vars
    rw [upsertAll_cons, ih, replaceOrAppend_find, List.reverse_cons, List.find?_append]
    by_cases hn : env.Name = n
    · cases nv.reverse.find? (fun v => decide (v.Name = n)) <;> simp [hn, List.find?_cons]
    · cases nv.reverse.find? (fun v => decide (v.Name = n)) <;> simp [hn, List.find?_cons]

theorem upsertAll_length (nv : List EnvVar) :
    ∀ vars : List EnvVar,
      (upsertAll vars nv).length = vars.length +
        ((nv.map (fun e => e.Name)).toFinset \ (vars.map (fun e => e.Name)).toFinset).card := by
  induction nv with
  | nil => intro vars; simp [upsertAll]
  | cons env nv ih =>
    intro vars
    rw [upsertAll_cons, ih]
    have hlen : (replaceOrAppend env vars).length
        = ((replaceOrAppend env vars).map (fun v => v.Name)).length := by simp
    rw [hlen, replaceOrAppend_names, List.map_cons, List.toFinset_cons]
    by_cases h : env.Name ∈ vars.map (fun v => v.Name)
    · rw [if_pos h, Finset.insert_sdiff_of_mem _ (List.mem_toFinset.2 h)]
      simp
    · rw [if_neg h, Finset.insert_sdiff_of_not_mem _ (fun hm => h (List.mem_toFinset.1 hm))]
      have hset : insert env.Name
            ((nv.map (fun e => e.Name)).toFinset \ (vars.map (fun e => e.Name)).toFinset)
          = insert env.Name ((nv.map (fun e => e.Name)).toFinset \
              (vars.map (fun v => v.Name) ++ [env.Name]).toFinset) := by
        ext x
        by_cases hx : x = env.Name
        · simp [hx]
        · simp [hx]
      rw [hset, Finset.card_insert_of_not_mem (by simp)]
      simp
      omega

/-- What `append` does to the memory: the new header is valid, the memory
only grows, the backing array is the old one or a fresh one behind the old
memory, and an old cell keeps its content unless it lies in the backing array
of `s` and now holds `x`. -/
theorem goAppend_step (growth : Nat → Nat) (mem : Memory) (s : Slice) (x : EnvVar)
    (hs : s.Valid mem) :
    (goAppend growth mem s x).2.Valid (goAppend growth mem s x).1 ∧
    mem.length ≤ (goAppend growth mem s x).1.length ∧
    (((goAppend growth mem s x).2.ptr = s.ptr ∧ (goAppend growth mem s x).2.cap = s.cap) ∨
      mem.length ≤ (goAppend growth mem s x).2.ptr) ∧
    (∀ a, a < mem.length →
      (goAppend growth mem s x).1.getD a zeroEnvVar = mem.getD a zeroEnvVar ∨
      ((goAppend growth mem s x).1.getD a zeroEnvVar = x ∧ s.ptr ≤ a ∧ a < s.ptr + s.cap)) := by
  obtain ⟨h1, h2⟩ := hs
  unfold goAppend
  by_cases hcap : s.len < s.cap
  · simp only [if_pos hcap]
    refine ⟨⟨by simp; omega, by simp; omega⟩, by simp, by simp, fun a ha => ?_⟩
    by_cases hae : s.ptr + s.len = a
    · right
      subst hae
      exact ⟨getD_set_same mem _ x ha, by omega, by omega⟩
    · left
      exact getD_set_other mem _ _ x hae
  · simp only [if_neg hcap]
    refine ⟨⟨by simp, ?_⟩, by simp, Or.inr (Nat.le_refl _), fun a ha => ?_⟩
    · simp [Slice.elems_length]
      omega
    · left
      exact getD_append_old mem _ a ha

/-- What one call of the closure `upsert` does, for a valid `vars`: the facts
of `goAppend_step`, and the elements of `vars` become `replaceOrAppend` of the
old ones. -/
theorem UpsertEnvVars_upsert_step (growth : Nat → Nat) (mem : Memory) (vars : Slice)
    (env : EnvVar) (hv : vars.Valid mem) :
    (UpsertEnvVars.upsert growth (mem, vars) env).2.Valid
      (UpsertEnvVars.upsert growth (mem, vars) env).1 ∧
    mem.length ≤ (UpsertEnvVars.upsert growth (mem, vars) env).1.length ∧
    (((UpsertEnvVars.upsert growth (mem, vars) env).2.ptr = vars.ptr ∧
        (UpsertEnvVars.upsert growth (mem, vars) env).2.cap = vars.cap) ∨
      mem.length ≤ (UpsertEnvVars.upsert growth (mem, vars) env).2.ptr) ∧
    (∀ a, a < mem.length →
      (UpsertEnvVars.upsert growth (mem, vars) env).1.getD a zeroEnvVar
          = mem.getD a zeroEnvVar ∨
      ((UpsertEnvVars.upsert growth (mem, vars) env).1.getD a zeroEnvVar = env ∧
        vars.ptr ≤ a ∧ a < vars.ptr + vars.cap)) ∧
    (UpsertEnvVars.upsert growth (mem, vars) env).2.elems
        (UpsertEnvVars.upsert growth (mem, vars) env).1
      = replaceOrAppend env (vars.elems mem) := by
  have hv' := hv
  obtain ⟨h1, h2⟩ := hv'
  unfold UpsertEnvVars.upsert
  rcases UpsertEnvVars_scan_cases growth env mem vars vars.len 0 (by omega) with
    ⟨k, _, hk2, hk3, hk4, hk5⟩ | ⟨hnone, heq⟩
  · simp only [hk5]
    have hmem : vars.ptr + k < mem.length := by omega
    refine ⟨⟨h1, by simp; omega⟩, by simp, by simp, fun a ha => ?_, ?_⟩
    · by_cases hae : vars.ptr + k = a
      · right
        subst hae
        exact ⟨getD_set_same mem _ env ha, by omega, by omega⟩
      · left
        exact getD_set_other mem _ _ env hae
    · rw [Slice.elems_set mem vars k env hk2 hmem]
      symm
      apply replaceOrAppend_eq_set
      · exact ⟨_, by rw [Slice.elems_getElem, if_pos hk2], hk3⟩
      · intro k' v hk' hv2
        rw [Slice.elems_getElem, if_pos (by omega)] at hv2
        cases hv2
        exact hk4 k' (Nat.zero_le _) hk'
  · simp only [heq]
    obtain ⟨g1, g2, g3, g4⟩ := goAppend_step growth mem vars env hv
    refine ⟨g1, g2, g3, g4, ?_⟩
    rw [goAppend_elems growth mem vars env hv]
    symm
    apply replaceOrAppend_eq_append
    intro v hv2
    obtain ⟨i, hi, rfl⟩ := List.getElem_of_mem hv2
    rw [Slice.elems_length] at hi
    have := Slice.elems_getElem mem vars i
    rw [if_pos hi, List.getElem?_eq_getElem (by simpa [Slice.elems_length] using hi)] at this
    rw [Option.some.inj this]
    exact hnone i (Nat.zero_le _) hi

/-- The loop over `nv` when `nv` shares no memory with the backing array of
`vars`: the entries of `nv` are not changed by the writes, and the returned
elements are `upsertAll` of the elements of `vars` and the entries of `nv`
still to be read. -/
theorem UpsertEnvVars_run_disjoint (growth : Nat → Nat) (nv : Slice) :
    ∀ (n j : Nat) (mem : Memory) (vars : Slice), j + n = nv.len → vars.Valid mem →
      nv.ptr + nv.len ≤ mem.length →
      (nv.ptr + nv.len ≤ vars.ptr ∨ vars.ptr + vars.cap ≤ nv.ptr) →
      (UpsertEnvVars.run growth nv n j (mem, vars)).2.elems
          (UpsertEnvVars.run growth nv n j (mem, vars)).1
        = upsertAll (vars.elems mem) ((nv.elems mem).drop j) := by
  intro n
  induction n with
  | zero =>
    intro j mem vars hj _ _ _
    have : (nv.elems mem).drop j = [] := by
      apply List.drop_of_length_le
      rw [Slice.elems_length]
      omega
    rw [this]
    rfl
  | succ n ih =>
    intro j mem vars hj hv hnv hdis
    have hjlt : j < nv.len := by omega
    obtain ⟨s1, s2, s3, s4, s5⟩ :=
      UpsertEnvVars_upsert_step growth mem vars (mem.getD (nv.ptr + j) zeroEnvVar) hv
    have hkeep : nv.elems (UpsertEnvVars.upsert growth (mem, vars)
        (mem.getD (nv.ptr + j) zeroEnvVar)).1 = nv.elems mem := by
      apply List.ext_getElem?
      intro i
      rw [Slice.elems_getElem, Slice.elems_getElem]
      by_cases hi : i < nv.len
      · rw [if_pos hi, if_pos hi]
        rcases s4 (nv.ptr + i) (by omega) with h | ⟨_, h2, h3⟩
        · rw [h]
        · omega
      · rw [if_neg hi, if_neg hi]
    have hdrop : (nv.elems mem).drop j
        = mem.getD (nv.ptr + j) zeroEnvVar :: (nv.elems mem).drop (j + 1) := by
      have hlen : j < (nv.elems mem).length := by rw [Slice.elems_length]; exact hjlt
      rw [List.drop_eq_getElem_cons hlen]
      congr 1
      have := Slice.elems_getElem mem nv j
      rw [if_pos hjlt, List.getElem?_eq_getElem hlen] at this
      exact Option.some.inj this
    have hdis' : nv.ptr + nv.len ≤ (UpsertEnvVars.upsert growth (mem, vars)
          (mem.getD (nv.ptr + j) zeroEnvVar)).2.ptr ∨
        (UpsertEnvVars.upsert growth (mem, vars) (mem.getD (nv.ptr + j) zeroEnvVar)).2.ptr +
          (UpsertEnvVars.upsert growth (mem, vars) (mem.getD (nv.ptr + j) zeroEnvVar)).2.cap
            ≤ nv.ptr := by
      rcases s3 with ⟨hp, hc⟩ | hfresh
      · rw [hp, hc]; exact hdis
      · left; omega
    have := ih (j + 1) _ _ (by omega) s1 (by omega) hdis'
    unfold UpsertEnvVars.run
    rw [this, s5, hkeep, hdrop, upsertAll_cons]

/-- The loop over `nv`, whatever memory `nv` shares with `vars`: while every
entry of `nv` has a name in `names`, an entry of `vars` whose name is not in
`names` stays at its index. -/
theorem UpsertEnvVars_run_keeps (growth : Nat → Nat) (nv : Slice) (names : List String) :
    ∀ (n j : Nat) (mem : Memory) (vars : Slice), j + n = nv.len → vars.Valid mem →
      nv.ptr + nv.len ≤ mem.length →
      (∀ i, i < nv.len → (mem.getD (nv.ptr + i) zeroEnvVar).Name ∈ names) →
      ∀ (i : Nat) (v : EnvVar), (vars.elems mem)[i]? = some v → v.Name ∉ names →
        ((UpsertEnvVars.run growth nv n j (mem, vars)).2.elems
          (UpsertEnvVars.run growth nv n j (mem, vars)).1)[i]? = some v := by
  intro n
  induction n with
  | zero =>
    intro j mem vars _ _ _ _ i v hv _
    exact hv
  | succ n ih =>
    intro j mem vars hj hv hnv hnames i v hiv hvn
    have hjlt : j < nv.len := by omega
    obtain ⟨s1, s2, _, s4, s5⟩ :=
      UpsertEnvVars_upsert_step growth mem vars (mem.getD (nv.ptr + j) zeroEnvVar) hv
    have henv := hnames j hjlt
    unfold UpsertEnvVars.run
    apply ih (j + 1) _ _ (by omega) s1 (by omega) _ i v _ hvn
    · intro i' hi'
      rcases s4 (nv.ptr + i') (by omega) with h | ⟨h, _, _⟩
      · rw [h]; exact hnames i' hi'
      · rw [h]; exact henv
    · rw [s5]
      apply replaceOrAppend_getElem _ _ i v hiv
      intro he
      exact hvn (he ▸ henv)

theorem MergeLocalObjectReferences_first_loop (l : List LocalObjectReference) :
    ∀ (m : RefMap) (r : List LocalObjectReference),
      (l.foldl (fun (st : RefMap × List LocalObjectReference) ref =>
          (st.1.insert ref.Name ref, st.2 ++ [ref])) (m, r)).2 = r ++ l ∧
      ∀ k : String,
        ((l.foldl (fun (st : RefMap × List LocalObjectReference) ref =>
          (st.1.insert ref.Name ref, st.2 ++ [ref])) (m, r)).1 k).isSome = true ↔
        ((m k).isSome = true ∨ k ∈ l.map (fun ref => ref.Name)) := by
  induction l with
  | nil => intro m r; simp
  | cons ref l ih =>
    intro m r
    simp only [List.foldl_cons]
    obtain ⟨h1, h2⟩ := ih (m.insert ref.Name ref) (r ++ [ref])
    refine ⟨by simp [h1], fun k => ?_⟩
    rw [h2 k]
    unfold RefMap.insert
    by_cases hk : k = ref.Name
    · simp [hk]
    · simp [hk]

theorem MergeLocalObjectReferences_second_loop (m : RefMap) (l : List LocalObjectReference) :
    ∀ r : List LocalObjectReference,
      l.foldl (fun result ref => if (m ref.Name).isSome then result else result ++ [ref]) r
        = r ++ l.filter (fun ref => !(m ref.Name).isSome) := by
  induction l with
  | nil => intro r; simp
  | cons ref l ih =>
    intro r
    simp only [List.foldl_cons, List.filter_cons]
    cases h : (m ref.Name).isSome
    · simp [ih]
    · simp [ih]

theorem MergeLocalObjectReferences_eq (l1 l2 : List LocalObjectReference) :
    MergeLocalObjectReferences l1 l2
      = l1 ++ l2.filter (fun ref => decide (ref.Name ∉ l1.map (fun r => r.Name))) := by
  unfold MergeLocalObjectReferences
  obtain ⟨h1, h2⟩ := MergeLocalObjectReferences_first_loop l1 (fun _ => none) []
  simp only [MergeLocalObjectReferences_second_loop, h1, List.nil_append]
  congr 1
  apply List.filter_congr
  intro ref _
  have := h2 ref.Name
  simp only [Option.isSome_none, Bool.false_eq_true, false_or] at this
  by_cases hmem : ref.Name ∈ l1.map (fun r => r.Name)
  · simp [this.2 hmem, hmem]
  · have hnot : ¬ ((List.foldl (fun (st : RefMap × List LocalObjectReference) ref =>
          (st.1.insert ref.Name ref, st.2 ++ [ref])) ((fun _ => none), []) l1).1
            ref.Name).isSome = true := fun h => hmem (this.1 h)
    simp only [Bool.not_eq_true] at hnot
    simp [hnot, hmem]

theorem EnsureOwnerReference_find_eq (owner : ObjectReference) (refs : List OwnerReference) :
    ∀ i : Nat, EnsureOwnerReference.find owner i refs =
      if refs.any (sameOwner owner) then some (i + refs.findIdx (sameOwner owner)) else none := by
  induction refs with
  | nil => intro i; simp [EnsureOwnerReference.find]
  | cons ref refs ih =>
    intro i
    unfold EnsureOwnerReference.find
    cases h : sameOwner owner ref
    · simp only [Bool.false_eq_true, if_false, ih, List.any_cons, h, Bool.false_or,
        List.findIdx_cons, cond_false]
      split
      · simp; omega
      · rfl
    · simp [h, List.findIdx_cons]

theorem sameOwner_stamp (owner : ObjectReference) (ref : OwnerReference) :
    sameOwner owner (EnsureOwnerReference.stamp owner ref) = true := by
  simp [sameOwner, EnsureOwnerReference.stamp]

/-! ## Environment variables -/

/-- C11, as stated, fails when `nv` shares memory with `vars`.  For
`s = [C, X, D]` the call `UpsertEnvVars(s[1:2], s...)` appends `C` in place
over `s[2]` before the loop reads it and returns `[X, C]`: no entry of the
result is named `D` although `D` occurs in `nv`, and the length is 2, not
1 + 2 for the two new names `C` and `D`. -/
theorem UpsertEnvVars_shared_memory_counterexample :
    UpsertEnvVars.result (fun c => 2 * c)
        [⟨"C", "1", none⟩, ⟨"X", "2", none⟩, ⟨"D", "3", none⟩] ⟨1, 1, 2⟩ ⟨0, 3, 3⟩
      = [⟨"X", "2", none⟩, ⟨"C", "1", none⟩] ∧
    ¬ ((∀ n ∈ ((⟨0, 3, 3⟩ : Slice).elems
            [⟨"C", "1", none⟩, ⟨"X", "2", none⟩, ⟨"D", "3", none⟩]).map (fun e => e.Name),
          (UpsertEnvVars.result (fun c => 2 * c)
              [⟨"C", "1", none⟩, ⟨"X", "2", none⟩, ⟨"D", "3", none⟩] ⟨1, 1, 2⟩ ⟨0, 3, 3⟩).find?
              (fun v => decide (v.Name = n))
            = ((⟨0, 3, 3⟩ : Slice).elems
                [⟨"C", "1", none⟩, ⟨"X", "2", none⟩, ⟨"D", "3", none⟩]).reverse.find?
              (fun v => decide (v.Name = n))) ∨
        (UpsertEnvVars.result (fun c => 2 * c)
            [⟨"C", "1", none⟩, ⟨"X", "2", none⟩, ⟨"D", "3", none⟩] ⟨1, 1, 2⟩ ⟨0, 3, 3⟩).length
          = (⟨1, 1, 2⟩ : Slice).len +
            ((((⟨0, 3, 3⟩ : Slice).elems
                [⟨"C", "1", none⟩, ⟨"X", "2", none⟩, ⟨"D", "3", none⟩]).map
                  (fun e => e.Name)).toFinset \
              (((⟨1, 1, 2⟩ : Slice).elems
                [⟨"C", "1", none⟩, ⟨"X", "2", none⟩, ⟨"D", "3", none⟩]).map
                  (fun e => e.Name)).toFinset).card) := by
  decide

/-- The call `UpsertEnvVars(s[1:], s...)` for `s = [A:1, B:2, A:3]`: the write
`vars[1] = env` of the first iteration changes `s[2]` before the loop reads it,
and the call returns `[B:2, A:1]`. -/
theorem UpsertEnvVars_shared_tail_example :
    UpsertEnvVars.result (fun c => 2 * c)
        [⟨"A", "1", none⟩, ⟨"B", "2", none⟩, ⟨"A", "3", none⟩] ⟨1, 2, 2⟩ ⟨0, 3, 3⟩
      = [⟨"B", "2", none⟩, ⟨"A", "1", none⟩] := by
  decide

/-- C11 (amended): `UpsertEnvVars` is an update-or-insert keyed by `Name`.
(1) For every valid `vars` and `nv`, an entry of `vars` whose name does not
occur in `nv` is at the same index of the result, unchanged.  When `nv` shares
no memory with the backing array of `vars`: (2) for every name occurring in
`nv`, the first entry of that name in the result is the last entry of that
name in `nv`; (3) the length of the result is the length of `vars` plus the
number of distinct names of `nv` that do not occur in `vars`. -/
theorem UpsertEnvVars_upsert_by_name (growth : Nat → Nat) (mem : Memory) (vars nv : Slice)
    (hvars : vars.Valid mem) (hnv : nv.Valid mem) :
    (∀ (i : Nat) (v : EnvVar), (vars.elems mem)[i]? = some v →
      v.Name ∉ (nv.elems mem).map (fun e => e.Name) →
      (UpsertEnvVars.result growth mem vars nv)[i]? = some v) ∧
    ((nv.ptr + nv.len ≤ vars.ptr ∨ vars.ptr + vars.cap ≤ nv.ptr) →
      (∀ n ∈ (nv.elems mem).map (fun e => e.Name),
        (∃ e : EnvVar, (nv.elems mem).reverse.find? (fun v => decide (v.Name = n)) = some e) ∧
        (UpsertEnvVars.result growth mem vars nv).find? (fun v => decide (v.Name = n))
          = (nv.elems mem).reverse.find? (fun v => decide (v.Name = n))) ∧
      (UpsertEnvVars.result growth mem vars nv).length = vars.len +
        (((nv.elems mem).map (fun e => e.Name)).toFinset \
          ((vars.elems mem).map (fun e => e.Name)).toFinset).card) := by
  have hnv' : nv.ptr + nv.len ≤ mem.length := by
    obtain ⟨h1, h2⟩ := hnv
    omega
  refine ⟨?_, fun hdis => ?_⟩
  · intro i v hiv hvn
    unfold UpsertEnvVars.result UpsertEnvVars
    apply UpsertEnvVars_run_keeps growth nv ((nv.elems mem).map (fun e => e.Name)) nv.len 0 mem
      vars (by omega) hvars hnv' _ i v hiv hvn
    intro k hk
    apply List.mem_map.2
    refine ⟨mem.getD (nv.ptr + k) zeroEnvVar, ?_, rfl⟩
    apply List.mem_iff_getElem?.2
    exact ⟨k, by rw [Slice.elems_getElem, if_pos hk]⟩
  · have hres : UpsertEnvVars.result growth mem vars nv
        = upsertAll (vars.elems mem) (nv.elems mem) := by
      unfold UpsertEnvVars.result UpsertEnvVars
      rw [UpsertEnvVars_run_disjoint growth nv nv.len 0 mem vars (by omega) hvars hnv' hdis]
      rfl
    rw [hres]
    refine ⟨fun n hn => ?_, ?_⟩
    · have hsome : ((nv.elems mem).reverse.find? (fun v => decide (v.Name = n))).isSome = true := by
        rw [List.find?_isSome]
        obtain ⟨e, he, hname⟩ := List.mem_map.1 hn
        exact ⟨e, List.mem_reverse.2 he, by simpa using hname⟩
      obtain ⟨e, he⟩ := Option.isSome_iff_exists.1 hsome
      refine ⟨⟨e, he⟩, ?_⟩
      rw [upsertAll_find, he]
      rfl
    · rw [upsertAll_length, Slice.elems_length]

/-- Witness of C11: `vars` and `nv` lie behind one another in memory.  `B` is
not among the new variables and stays at index 1; the result is one longer
than `vars`, for the one new name `C`. -/
theorem UpsertEnvVars_upsert_by_name_witness :
    (UpsertEnvVars.result (fun c => 2 * c)
        [⟨"A", "1", none⟩, ⟨"B", "2", none⟩, ⟨"A", "3", none⟩,
          ⟨"A", "9", none⟩, ⟨"C", "7", none⟩, ⟨"C", "8", none⟩, ⟨"A", "10", none⟩]
        ⟨0, 3, 3⟩ ⟨3, 4, 4⟩)[1]? = some ⟨"B", "2", none⟩ ∧
    (UpsertEnvVars.result (fun c => 2 * c)
        [⟨"A", "1", none⟩, ⟨"B", "2", none⟩, ⟨"A", "3", none⟩,
          ⟨"A", "9", none⟩, ⟨"C", "7", none⟩, ⟨"C", "8", none⟩, ⟨"A", "10", none⟩]
        ⟨0, 3, 3⟩ ⟨3, 4, 4⟩).length = 3 +
      ((((⟨3, 4, 4⟩ : Slice).elems
          [⟨"A", "1", none⟩, ⟨"B", "2", none⟩, ⟨"A", "3", none⟩,
            ⟨"A", "9", none⟩, ⟨"C", "7", none⟩, ⟨"C", "8", none⟩, ⟨"A", "10", none⟩]).map
            (fun e => e.Name)).toFinset \
        (((⟨0, 3, 3⟩ : Slice).elems
          [⟨"A", "1", none⟩, ⟨"B", "2", none⟩, ⟨"A", "3", none⟩,
            ⟨"A", "9", none⟩, ⟨"C", "7", none⟩, ⟨"C", "8", none⟩, ⟨"A", "10", none⟩]).map
            (fun e => e.Name)).toFinset).card :=
  ⟨(UpsertEnvVars_upsert_by_name (fun c => 2 * c)
      [⟨"A", "1", none⟩, ⟨"B", "2", none⟩, ⟨"A", "3", none⟩,
        ⟨"A", "9", none⟩, ⟨"C", "7", none⟩, ⟨"C", "8", none⟩, ⟨"A", "10", none⟩]
      ⟨0, 3, 3⟩ ⟨3, 4, 4⟩ ⟨by decide, by decide⟩ ⟨by decide, by decide⟩).1
      1 ⟨"B", "2", none⟩ (by decide) (by decide),
   ((UpsertEnvVars_upsert_by_name (fun c => 2 * c)
      [⟨"A", "1", none⟩, ⟨"B", "2", none⟩, ⟨"A", "3", none⟩,
        ⟨"A", "9", none⟩, ⟨"C", "7", none⟩, ⟨"C", "8", none⟩, ⟨"A", "10", none⟩]
      ⟨0, 3, 3⟩ ⟨3, 4, 4⟩ ⟨by decide, by decide⟩ ⟨by decide, by decide⟩).2
      (Or.inr (by decide))).2⟩

/-- C12: `EnsureEnvVarDeleted` removes only the first entry named `name`: when
`vars` is `pre`, then an entry named `name`, then `post`, and no entry of `pre`
has that name, the result is `pre ++ post` (so a later entry of the same name
survives); when no entry has that name the result is `vars`; and when the
names in `vars` are pairwise distinct, no entry named `name` remains. -/
theorem EnsureEnvVarDeleted_removes_first (vars : List EnvVar) (name : String) :
    (∀ (pre post : List EnvVar) (v : EnvVar), vars = pre ++ v :: post →
      (∀ x ∈ pre, x.Name ≠ name) → v.Name = name →
      EnsureEnvVarDeleted vars name = pre ++ post) ∧
    ((∀ x ∈ vars, x.Name ≠ name) → EnsureEnvVarDeleted vars name = vars) ∧
    ((vars.map (fun v => v.Name)).Nodup →
      ∀ x ∈ EnsureEnvVarDeleted vars name, x.Name ≠ name) := by
  rw [EnsureEnvVarDeleted_eq_eraseP]
  refine ⟨?_, ?_, ?_⟩
  · rintro pre post v rfl hpre hv
    rw [List.eraseP_append_right _ (fun x hx => by simpa using hpre x hx)]
    simp [hv]
  · intro hnone
    exact List.eraseP_of_forall_not (fun x hx => by simpa using hnone x hx)
  · intro hnodup x hx hname
    induction vars with
    | nil => simp at hx
    | cons v vs ih =>
      rw [List.map_cons, List.nodup_cons] at hnodup
      by_cases hv : v.Name = name
      · rw [List.eraseP_cons_of_pos (by simpa using hv)] at hx
        exact hnodup.1 (List.mem_map.2 ⟨x, hx, by rw [hname, hv]⟩)
      · rw [List.eraseP_cons_of_neg (by simpa using hv)] at hx
        rcases List.mem_cons.1 hx with rfl | hx
        · exact hv hname
        · exact ih hnodup.2 hx

/-- Witness of C12: the first of two entries named `A` is removed and the
second one survives. -/
theorem EnsureEnvVarDeleted_removes_first_witness :
    EnsureEnvVarDeleted [⟨"B", "2", none⟩, ⟨"A", "1", none⟩, ⟨"C", "4", none⟩, ⟨"A", "3", none⟩] "A"
      = [⟨"B", "2", none⟩] ++ [⟨"C", "4", none⟩, ⟨"A", "3", none⟩] :=
  (EnsureEnvVarDeleted_removes_first
      [⟨"B", "2", none⟩, ⟨"A", "1", none⟩, ⟨"C", "4", none⟩, ⟨"A", "3", none⟩] "A").1
    [⟨"B", "2", none⟩] [⟨"C", "4", none⟩, ⟨"A", "3", none⟩] ⟨"A", "1", none⟩ rfl (by decide) rfl

/-! ## Owner references and local object references -/

/-- C13: for a non-nil owner with non-empty APIVersion, Kind, Name and UID in
the namespace of the object, `EnsureOwnerReference` upserts by kind and name:
the call returns, the first owner reference with the owner's kind and name
carries the owner's APIVersion and UID, every other owner reference is
unchanged at its position, and the list is one longer when no reference had
that kind and name before and as long as before otherwise.  When the owner is
nil or one of the four fields is empty, the object is left unchanged. -/
theorem EnsureOwnerReference_upserts (meta : ObjectMeta) (owner : ObjectReference) :
    (owner.APIVersion ≠ "" → owner.Kind ≠ "" → owner.Name ≠ "" → owner.UID ≠ "" →
      meta.Namespace = owner.Namespace →
      ∃ after : ObjectMeta, EnsureOwnerReference meta (some owner) = .ok after ∧
        (∃ ref : OwnerReference,
          after.OwnerReferences.find? (sameOwner owner) = some ref ∧
          ref.APIVersion = owner.APIVersion ∧ ref.UID = owner.UID) ∧
        (∀ i : Nat, i ≠ after.OwnerReferences.findIdx (sameOwner owner) →
          after.OwnerReferences[i]? = meta.OwnerReferences[i]?) ∧
        after.OwnerReferences.length =
          (if meta.OwnerReferences.any (sameOwner owner) then meta.OwnerReferences.length
           else meta.OwnerReferences.length + 1)) ∧
    ((owner.APIVersion = "" ∨ owner.Kind = "" ∨ owner.Name = "" ∨ owner.UID = "") →
      EnsureOwnerReference meta (some owner) = .ok meta) ∧
    EnsureOwnerReference meta none = .ok meta := by
  refine ⟨?_, ?_, rfl⟩
  · intro hv hk hn hu hns
    unfold EnsureOwnerReference
    simp only [hv, hk, hn, hu, hns, decide_False, Bool.or_self, Bool.false_eq_true, if_false,
      ne_eq, not_true_eq_false]
    rw [EnsureOwnerReference_find_eq]
    by_cases hany : meta.OwnerReferences.any (sameOwner owner) = true
    · have hex : ∃ x ∈ meta.OwnerReferences, sameOwner owner x = true := by
        simpa using hany
      have hlt := List.findIdx_lt_length_of_exists hex
      simp only [hany, if_true, Nat.zero_add]
      refine ⟨_, rfl, ?_⟩
      have hidx : (meta.OwnerReferences.set (meta.OwnerReferences.findIdx (sameOwner owner))
            (EnsureOwnerReference.stamp owner
              (meta.OwnerReferences.getD (meta.OwnerReferences.findIdx (sameOwner owner))
                emptyOwnerReference))).findIdx (sameOwner owner)
          = meta.OwnerReferences.findIdx (sameOwner owner) := by
        rw [List.findIdx_eq (by simpa using hlt)]
        refine ⟨by simp [sameOwner_stamp], fun j hj => ?_⟩
        rw [List.getElem_set_ne (by omega)]
        exact List.not_of_lt_findIdx hj |> (by simpa using ·)
      refine ⟨?_, ?_, by simp⟩
      · refine ⟨EnsureOwnerReference.stamp owner
          (meta.OwnerReferences.getD (meta.OwnerReferences.findIdx (sameOwner owner))
            emptyOwnerReference), ?_, rfl, rfl⟩
        rw [List.find?_eq_some]
        refine ⟨sameOwner_stamp _ _,
          meta.OwnerReferences.take (meta.OwnerReferences.findIdx (sameOwner owner)),
          meta.OwnerReferences.drop (meta.OwnerReferences.findIdx (sameOwner owner) + 1), ?_, ?_⟩
        · rw [List.set_eq_take_append_cons_drop, if_pos hlt]
        · intro a ha
          obtain ⟨j, hj, rfl⟩ := List.getElem_of_mem ha
          simp only [List.length_take] at hj
          rw [List.getElem_take]
          have hjlt : j < meta.OwnerReferences.findIdx (sameOwner owner) := by omega
          have := List.not_of_lt_findIdx hjlt
          simpa using this
      · intro i hi
        rw [hidx] at hi
        exact List.getElem?_set_ne (Ne.symm hi)
    · have hnone : ∀ x ∈ meta.OwnerReferences, sameOwner owner x = false := by
        simpa using hany
      simp only [hany, Bool.false_eq_true, if_false, Nat.add_sub_cancel]
      refine ⟨_, rfl, ?_⟩
      have hset : (meta.OwnerReferences ++ [emptyOwnerReference]).set meta.OwnerReferences.length
            (EnsureOwnerReference.stamp owner
              ((meta.OwnerReferences ++ [emptyOwnerReference]).getD meta.OwnerReferences.length
                emptyOwnerReference))
          = meta.OwnerReferences ++ [EnsureOwnerReference.stamp owner emptyOwnerReference] := by
        simp [List.set_append_right]
      simp only [hset]
      have hidx : (meta.OwnerReferences ++
            [EnsureOwnerReference.stamp owner emptyOwnerReference]).findIdx (sameOwner owner)
          = meta.OwnerReferences.length := by
        rw [List.findIdx_append, List.findIdx_eq_length.2 hnone]
        simp [List.findIdx_cons, sameOwner_stamp]
      refine ⟨?_, ?_, by simp⟩
      · refine ⟨EnsureOwnerReference.stamp owner emptyOwnerReference, ?_, rfl, rfl⟩
        rw [List.find?_append, List.find?_eq_none.2 (fun x hx => by simp [hnone x hx])]
        simp [sameOwner_stamp]
      · intro i hi
        rw [hidx] at hi
        rcases Nat.lt_or_gt_of_ne hi with hlt | hgt
        · rw [List.getElem?_append_left hlt]
        · rw [List.getElem?_eq_none (by simp; omega), List.getElem?_eq_none (by omega)]
  · intro hempty
    unfold EnsureOwnerReference
    rcases hempty with h | h | h | h <;> simp [h]

/-- Witness of C13: the object has no reference to the job yet, and one is
appended. -/
theorem EnsureOwnerReference_upserts_witness :
    ∃ after : ObjectMeta,
      EnsureOwnerReference ⟨"pod", "ns", [⟨"v1", "Pod", "p", "u1", none, none⟩], []⟩
        (some ⟨"Job", "ns", "j", "u9", "batch/v1", "", ""⟩) = .ok after ∧
      (∃ ref : OwnerReference,
        after.OwnerReferences.find? (sameOwner ⟨"Job", "ns", "j", "u9", "batch/v1", "", ""⟩)
          = some ref ∧
        ref.APIVersion = "batch/v1" ∧ ref.UID = "u9") ∧
      (∀ i : Nat,
        i ≠ after.OwnerReferences.findIdx (sameOwner ⟨"Job", "ns", "j", "u9", "batch/v1", "", ""⟩) →
        after.OwnerReferences[i]? = [(⟨"v1", "Pod", "p", "u1", none, none⟩ : OwnerReference)][i]?) ∧
      after.OwnerReferences.length = 2 :=
  (EnsureOwnerReference_upserts ⟨"pod", "ns", [⟨"v1", "Pod", "p", "u1", none, none⟩], []⟩
      ⟨"Job", "ns", "j", "u9", "batch/v1", "", ""⟩).1
    (by decide) (by decide) (by decide) (by decide) rfl

/-- C14: `MergeLocalObjectReferences l1 l2` is `l1` followed by the entries of
`l2`, in order, whose name does not occur in `l1`; so when the names within
`l1` and the names within `l2` are pairwise distinct, the names of the result
are pairwise distinct and are the names of `l1` together with those of
`l2`. -/
theorem MergeLocalObjectReferences_merges (l1 l2 : List LocalObjectReference) :
    MergeLocalObjectReferences l1 l2
      = l1 ++ l2.filter (fun ref => decide (ref.Name ∉ l1.map (fun r => r.Name))) ∧
    ((l1.map (fun r => r.Name)).Nodup → (l2.map (fun r => r.Name)).Nodup →
      ((MergeLocalObjectReferences l1 l2).map (fun r => r.Name)).Nodup ∧
      ∀ n : String, n ∈ (MergeLocalObjectReferences l1 l2).map (fun r => r.Name) ↔
        (n ∈ l1.map (fun r => r.Name) ∨ n ∈ l2.map (fun r => r.Name))) := by
  refine ⟨MergeLocalObjectReferences_eq l1 l2, fun h1 h2 => ?_⟩
  rw [MergeLocalObjectReferences_eq, List.map_append]
  refine ⟨?_, fun n => ?_⟩
  · rw [List.nodup_append]
    refine ⟨h1, h2.sublist ((List.filter_sublist l2).map _), ?_⟩
    intro n hn1 hn2
    obtain ⟨ref, href, rfl⟩ := List.mem_map.1 hn2
    have := (List.mem_filter.1 href).2
    simp only [decide_eq_true_eq] at this
    exact this hn1
  · rw [List.mem_append]
    constructor
    · rintro (h | h)
      · exact Or.inl h
      · obtain ⟨ref, href, rfl⟩ := List.mem_map.1 h
        exact Or.inr (List.mem_map.2 ⟨ref, (List.mem_filter.1 href).1, rfl⟩)
    · rintro (h | h)
      · exact Or.inl h
      · by_cases hn : n ∈ l1.map (fun r => r.Name)
        · exact Or.inl hn
        · obtain ⟨ref, href, rfl⟩ := List.mem_map.1 h
          exact Or.inr (List.mem_map.2 ⟨ref, List.mem_filter.2 ⟨href, by simpa using hn⟩, rfl⟩)

/-- Witness of C14: `b` occurs in both lists and is listed once. -/
theorem MergeLocalObjectReferences_merges_witness :
    ((MergeLocalObjectReferences [⟨"a"⟩, ⟨"b"⟩] [⟨"b"⟩, ⟨"c"⟩]).map (fun r => r.Name)).Nodup ∧
    ∀ n : String,
      n ∈ (MergeLocalObjectReferences [⟨"a"⟩, ⟨"b"⟩] [⟨"b"⟩, ⟨"c"⟩]).map (fun r => r.Name) ↔
        (n ∈ [(⟨"a"⟩ : LocalObjectReference), ⟨"b"⟩].map (fun r => r.Name) ∨
          n ∈ [(⟨"b"⟩ : LocalObjectReference), ⟨"c"⟩].map (fun r => r.Name)) :=
  (MergeLocalObjectReferences_merges [⟨"a"⟩, ⟨"b"⟩] [⟨"b"⟩, ⟨"c"⟩]).2 (by decide) (by decide)

/-! ## Finalizers -/

/-- C15: the finalizers of `RemoveFinalizer m f` are the entries of
`m.Finalizers` different from `f`, in their original order; so
`HasFinalizer (RemoveFinalizer m f) f` is false, and when `m` does not contain
`f`, `RemoveFinalizer (AddFinalizer m f) f` has the finalizers of `m`. -/
theorem RemoveFinalizer_removes_all (m : ObjectMeta) (f : String) :
    (RemoveFinalizer m f).Finalizers = m.Finalizers.filter (fun name => decide (name ≠ f)) ∧
    HasFinalizer (RemoveFinalizer m f) f = false ∧
    (f ∉ m.Finalizers → (RemoveFinalizer (AddFinalizer m f) f).Finalizers = m.Finalizers) := by
  refine ⟨RemoveFinalizer_Finalizers m f, ?_, ?_⟩
  · rw [HasFinalizer_eq, RemoveFinalizer_Finalizers]
    simp
  · intro hf
    rw [RemoveFinalizer_Finalizers, AddFinalizer_Finalizers, if_neg hf, List.filter_append]
    have hkeep : m.Finalizers.filter (fun name => decide (name ≠ f)) = m.Finalizers := by
      rw [List.filter_eq_self]
      intro name hname
      have : name ≠ f := fun e => hf (e ▸ hname)
      simpa using this
    rw [hkeep]
    simp

/-- Witness of C15: adding and removing a finalizer that was not there. -/
theorem RemoveFinalizer_removes_all_witness :
    (RemoveFinalizer (AddFinalizer ⟨"pod", "default", [], ["a", "b"]⟩ "c") "c").Finalizers
      = ["a", "b"] :=
  (RemoveFinalizer_removes_all ⟨"pod", "default", [], ["a", "b"]⟩ "c").2.2 (by decide)

/-- C16: `AddFinalizer` is idempotent and adds no duplicate: `AddFinalizer m f`
contains `f`; adding `f` a second time leaves the finalizers as they are; the
finalizers of `AddFinalizer m f` are those of `m` when `m` contains `f`, and
those of `m` followed by `f` otherwise. -/
theorem AddFinalizer_idempotent (m : ObjectMeta) (f : String) :
    HasFinalizer (AddFinalizer m f) f = true ∧
    (AddFinalizer (AddFinalizer m f) f).Finalizers = (AddFinalizer m f).Finalizers ∧
    (f ∈ m.Finalizers → (AddFinalizer m f).Finalizers = m.Finalizers) ∧
    (f ∉ m.Finalizers → (AddFinalizer m f).Finalizers = m.Finalizers ++ [f]) := by
  have hmem : f ∈ (AddFinalizer m f).Finalizers := by
    rw [AddFinalizer_Finalizers]
    split
    · assumption
    · simp
  refine ⟨?_, ?_, ?_, ?_⟩
  · rw [HasFinalizer_eq]
    simpa using hmem
  · rw [AddFinalizer_Finalizers (AddFinalizer m f), if_pos hmem]
  · intro h
    rw [AddFinalizer_Finalizers, if_pos h]
  · intro h
    rw [AddFinalizer_Finalizers, if_neg h]

/-- Witness of C16: a finalizer that is present is not added again, and one
that is absent is appended. -/
theorem AddFinalizer_idempotent_witness :
    (AddFinalizer ⟨"pod", "default", [], ["a", "b"]⟩ "a").Finalizers = ["a", "b"] ∧
    (AddFinalizer ⟨"pod", "default", [], ["a", "b"]⟩ "c").Finalizers = ["a", "b"] ++ ["c"] :=
  ⟨(AddFinalizer_idempotent ⟨"pod", "default", [], ["a", "b"]⟩ "a").2.2.1 (by decide),
   (AddFinalizer_idempotent ⟨"pod", "default", [], ["a", "b"]⟩ "c").2.2.2 (by decide)⟩


end PreK
